import Mathlib

/-! Verification of the signed-directed-graph algorithms, the static-constraint
compiler and auxiliary routines of the `biodivine-lib-param-bn` repository,
against a shallow embedding of the source.  Graph vertices are `Fin n`; the
unsigned successor relation is all that the cycle and feedback-vertex-set
analysis inspects.  External components (the BDD engine, the z3 oracle) and the
helper modules that are declared but whose code is not among the provided
sources (shortest-cycle search, greedy FVS, independent cycles) are modelled
from the specification, as documented on each such definition. -/

namespace BioParamBN

namespace SdGraph

variable {n : Nat}

/-- Boolean chain of edges along a list: `chainB E a [b, c]` means `E a b` and
`E b c` hold. -/
def chainB (E : Fin n → Fin n → Bool) : Fin n → List (Fin n) → Bool
  | _, [] => true
  | a, b :: l => E a b && chainB E b l

/-- Decides whether `l` is a simple cycle of the edge relation `E`: nonempty,
consecutive edges, a closing edge from the last vertex back to the head, and no
duplicate vertices. -/
def cycB (E : Fin n → Fin n → Bool) : List (Fin n) → Bool
  | [] => false
  | x :: xs => chainB E x xs && E (xs.getLastD x) x && decide ((x :: xs).Nodup)

/-- A simple cycle whose vertices all lie in the restriction set `R`. -/
def CycIn (E : Fin n → Fin n → Bool) (R : Finset (Fin n)) (l : List (Fin n)) : Prop :=
  cycB E l = true ∧ ∀ x ∈ l, x ∈ R

instance (E : Fin n → Fin n → Bool) (R : Finset (Fin n)) (l : List (Fin n)) :
    Decidable (CycIn E R l) := by
  unfold CycIn; infer_instance

/-- A simple cycle within `R` that starts at the pivot vertex `v`. -/
def cycThruB (E : Fin n → Fin n → Bool) (R : Finset (Fin n)) (v : Fin n)
    (l : List (Fin n)) : Bool :=
  cycB E l && decide (l.head? = some v) && l.all (fun x => decide (x ∈ R))

lemma cycThruB_iff {E : Fin n → Fin n → Bool} {R : Finset (Fin n)} {v : Fin n}
    {l : List (Fin n)} :
    cycThruB E R v l = true ↔ cycB E l = true ∧ l.head? = some v ∧ ∀ x ∈ l, x ∈ R := by
  simp [cycThruB, and_assoc]

lemma cycIn_of_cycThru {E : Fin n → Fin n → Bool} {R : Finset (Fin n)} {v : Fin n}
    {l : List (Fin n)} (h : cycThruB E R v l = true) : CycIn E R l := by
  rcases cycThruB_iff.mp h with ⟨h1, _, h3⟩
  exact ⟨h1, h3⟩

lemma cycThru_of_cycIn {E : Fin n → Fin n → Bool} {R : Finset (Fin n)}
    {x : Fin n} {xs : List (Fin n)} (h : CycIn E R (x :: xs)) :
    cycThruB E R x (x :: xs) = true := by
  exact cycThruB_iff.mpr ⟨h.1, rfl, h.2⟩

lemma CycIn.mono {E : Fin n → Fin n → Bool} {R S : Finset (Fin n)} {l : List (Fin n)}
    (h : CycIn E R l) (hRS : R ⊆ S) : CycIn E S l :=
  ⟨h.1, fun x hx => hRS (h.2 x hx)⟩

/-- Every list of length `k` over `Fin n`; the raw search space for cycles. -/
def tuples (n : Nat) : Nat → List (List (Fin n))
  | 0 => [[]]
  | k + 1 => (List.finRange n).flatMap (fun v => (tuples n k).map (v :: ·))

lemma mem_tuples {k : Nat} {l : List (Fin n)} : l ∈ tuples n k ↔ l.length = k := by
  induction k generalizing l with
  | zero => cases l <;> simp [tuples]
  | succ k ih =>
    cases l with
    | nil => simp [tuples]
    | cons x xs =>
      simp only [tuples, List.mem_flatMap, List.mem_map, List.length_cons]
      constructor
      · rintro ⟨v, _, t, ht, heq⟩
        cases heq
        simp [ih.mp ht]
      · intro h
        exact ⟨x, List.mem_finRange x, xs, ih.mpr (Nat.succ_injective h), rfl⟩

/-- Return the first `some` among `f k` for `k` drawn from the list, in order. -/
def firstSome {β : Type} (f : Nat → Option β) : List Nat → Option β
  | [] => none
  | k :: ks =>
    match f k with
    | some b => some b
    | none => firstSome f ks

lemma firstSome_eq_none {β : Type} {f : Nat → Option β} {ks : List Nat}
    (h : firstSome f ks = none) : ∀ k ∈ ks, f k = none := by
  induction ks with
  | nil => simp
  | cons k ks ih =>
    unfold firstSome at h
    cases hfk : f k with
    | some b => rw [hfk] at h; exact absurd h (by simp)
    | none =>
      rw [hfk] at h
      intro k' hk'
      rcases List.mem_cons.mp hk' with rfl | hk'
      · exact hfk
      · exact ih h k' hk'

lemma firstSome_eq_some {β : Type} {f : Nat → Option β} {ks : List Nat} {b : β}
    (hsorted : ks.Pairwise (· ≤ ·)) (h : firstSome f ks = some b) :
    ∃ k ∈ ks, f k = some b ∧ ∀ k' ∈ ks, k' < k → f k' = none := by
  induction ks with
  | nil => simp [firstSome] at h
  | cons k ks ih =>
    rcases List.pairwise_cons.mp hsorted with ⟨hle, htail⟩
    revert h; unfold firstSome
    cases hfk : f k with
    | some b' =>
      intro h
      cases h
      refine ⟨k, List.mem_cons_self .., hfk, ?_⟩
      intro k' hk' hlt
      rcases List.mem_cons.mp hk' with rfl | hk'
      · omega
      · exact absurd hlt (by have := hle k' hk'; omega)
    | none =>
      intro h
      obtain ⟨k0, hk0, hfk0, hmin⟩ := ih htail h
      refine ⟨k0, List.mem_cons_of_mem _ hk0, hfk0, ?_⟩
      intro k' hk' hlt
      rcases List.mem_cons.mp hk' with rfl | hk'
      · exact hfk
      · exact hmin k' hk' hlt

/-- Modelled from the spec: `SdGraph::shortest_cycle(R, pivot, usize::MAX)`
(module `_cycle_detection`, whose code is not among the provided sources).  Per
§4.4 it returns a shortest simple cycle through `pivot` inside `R`, or none when
no such cycle exists; candidate lengths `1..n` are tried in increasing order, so
the first hit is shortest.  The spec's BFS is replaced by exhaustive enumeration
with a deterministic tie-break, which realises the same contract. -/
def shortestCycle (E : Fin n → Fin n → Bool) (R : Finset (Fin n)) (v : Fin n) :
    Option (List (Fin n)) :=
  firstSome (fun k => ((tuples n k).filter (cycThruB E R v)).head?) (List.range' 1 n)

lemma shortestCycle_none {E : Fin n → Fin n → Bool} {R : Finset (Fin n)} {v : Fin n}
    (h : shortestCycle E R v = none) : ∀ l, cycThruB E R v l ≠ true := by
  intro l hl
  rcases cycThruB_iff.mp hl with ⟨hc, hhead, _⟩
  have hne : l ≠ [] := by
    intro hnil; rw [hnil] at hc; simp [cycB] at hc
  have hlen1 : 1 ≤ l.length := by
    cases l with
    | nil => exact absurd rfl hne
    | cons a as => simp
  have hlenn : l.length ≤ n := by
    have hnd : l.Nodup := by
      cases l with
      | nil => exact absurd rfl hne
      | cons a as =>
        simp only [cycB, Bool.and_eq_true, decide_eq_true_eq] at hc
        exact hc.2
    simpa using hnd.length_le_card
  have hmem : l.length ∈ List.range' 1 n := by
    rw [List.mem_range'_1]; omega
  have hnone := firstSome_eq_none h l.length hmem
  have hl' : l ∈ (tuples n l.length).filter (cycThruB E R v) :=
    List.mem_filter.mpr ⟨mem_tuples.mpr rfl, hl⟩
  rw [List.head?_eq_none_iff.mp hnone] at hl'
  simp at hl'

lemma shortestCycle_some {E : Fin n → Fin n → Bool} {R : Finset (Fin n)} {v : Fin n}
    {c : List (Fin n)} (h : shortestCycle E R v = some c) :
    cycThruB E R v c = true ∧ ∀ l, cycThruB E R v l = true → c.length ≤ l.length := by
  obtain ⟨k, hk, hfk, hmin⟩ :=
    firstSome_eq_some (List.pairwise_le_range' 1 n) h
  have hcmem : c ∈ (tuples n k).filter (cycThruB E R v) :=
    List.mem_of_mem_head? hfk
  have hthru : cycThruB E R v c = true := (List.mem_filter.mp hcmem).2
  have hclen : c.length = k := mem_tuples.mp (List.mem_of_mem_filter hcmem)
  refine ⟨hthru, ?_⟩
  intro l hl
  by_contra hlt
  push_neg at hlt
  have hne : l ≠ [] := by
    intro hnil
    rw [hnil] at hl
    simp [cycThruB, cycB] at hl
  have hlen1 : 1 ≤ l.length := by
    cases l with
    | nil => exact absurd rfl hne
    | cons a as => simp
  have hkmem : k ∈ List.range' 1 n := hk
  have hkub : k < 1 + n := (List.mem_range'_1.mp hkmem).2
  have hmeml : l.length ∈ List.range' 1 n := by
    rw [List.mem_range'_1]; omega
  have hnone := hmin l.length hmeml (by omega)
  have hl' : l ∈ (tuples n l.length).filter (cycThruB E R v) :=
    List.mem_filter.mpr ⟨mem_tuples.mpr rfl, hl⟩
  rw [List.head?_eq_none_iff.mp hnone] at hl'
  simp at hl'

lemma chainB_append {E : Fin n → Fin n → Bool} (a : Fin n) (l₁ l₂ : List (Fin n)) :
    chainB E a (l₁ ++ l₂) = (chainB E a l₁ && chainB E (l₁.getLastD a) l₂) := by
  induction l₁ generalizing a with
  | nil => simp [chainB]
  | cons b l₁ ih =>
    rw [List.cons_append]
    show (E a b && chainB E b (l₁ ++ l₂)) = _
    rw [ih b, List.getLastD_cons]
    show _ = ((E a b && chainB E b l₁) && chainB E (l₁.getLastD b) l₂)
    rw [Bool.and_assoc]

lemma getLastD_append (a : Fin n) (l₁ l₂ : List (Fin n)) :
    (l₁ ++ l₂).getLastD a = l₂.getLastD (l₁.getLastD a) := by
  induction l₁ generalizing a with
  | nil => rfl
  | cons b l₁ ih =>
    rw [List.cons_append, List.getLastD_cons, List.getLastD_cons, ih]

lemma getLastD_mem (a : Fin n) (l : List (Fin n)) : l.getLastD a ∈ a :: l := by
  induction l generalizing a with
  | nil => simp [List.getLastD]
  | cons b l ih =>
    rw [List.getLastD_cons]
    exact List.mem_cons_of_mem a (ih b)

/-- A simple cycle can be rotated so that any chosen vertex on it becomes the
head; the vertex set is unchanged. -/
lemma cycB_rotate {E : Fin n → Fin n → Bool} {l : List (Fin n)} {v : Fin n}
    (hc : cycB E l = true) (hv : v ∈ l) :
    ∃ l', cycB E l' = true ∧ l'.head? = some v ∧ (∀ x, x ∈ l' ↔ x ∈ l) := by
  cases l with
  | nil => simp at hv
  | cons x xs =>
    simp only [cycB, Bool.and_eq_true, decide_eq_true_eq] at hc
    obtain ⟨⟨hchain, hclose⟩, hnodup⟩ := hc
    rcases List.mem_cons.mp hv with rfl | hvx
    · refine ⟨v :: xs, ?_, rfl, fun _ => Iff.rfl⟩
      simp only [cycB, Bool.and_eq_true, decide_eq_true_eq]
      exact ⟨⟨hchain, hclose⟩, hnodup⟩
    · obtain ⟨b₁, b₂, hsplit⟩ := List.append_of_mem hvx
      subst hsplit
      have hperm : (v :: (b₂ ++ x :: b₁)).Perm (x :: (b₁ ++ v :: b₂)) := by
        have h1 : v :: (b₂ ++ x :: b₁) = (v :: b₂) ++ (x :: b₁) := by simp
        have h2 : x :: (b₁ ++ v :: b₂) = (x :: b₁) ++ (v :: b₂) := by simp
        rw [h1, h2]
        exact List.perm_append_comm
      refine ⟨v :: (b₂ ++ x :: b₁), ?_, rfl, fun y => hperm.mem_iff⟩
      have hchain' := hchain
      rw [chainB_append] at hchain'
      simp only [chainB, Bool.and_eq_true] at hchain'
      obtain ⟨hcb₁, hEv, hcb₂⟩ := hchain'
      have hlast : (b₁ ++ v :: b₂).getLastD x = b₂.getLastD v := by
        rw [getLastD_append, List.getLastD_cons]
      rw [hlast] at hclose
      simp only [cycB, Bool.and_eq_true, decide_eq_true_eq]
      refine ⟨⟨?_, ?_⟩, hperm.symm.nodup hnodup⟩
      · rw [chainB_append]
        simp only [chainB, Bool.and_eq_true]
        exact ⟨hcb₂, hclose, hcb₁⟩
      · have heq : (b₂ ++ x :: b₁).getLastD v = b₁.getLastD x := by
          rw [getLastD_append, List.getLastD_cons]
        rw [heq]
        exact hEv

lemma chainB_pred {E : Fin n → Fin n → Bool} {v : Fin n} :
    ∀ (a : Fin n) (xs : List (Fin n)), chainB E a xs = true → v ∈ xs →
      ∃ p ∈ a :: xs, E p v = true := by
  intro a xs
  induction xs generalizing a with
  | nil => simp
  | cons b ys ih =>
    simp only [chainB, Bool.and_eq_true]
    rintro ⟨hab, hch⟩ hv
    rcases List.mem_cons.mp hv with rfl | hv
    · exact ⟨a, by simp, hab⟩
    · obtain ⟨p, hp, hpv⟩ := ih b hch hv
      exact ⟨p, by rcases List.mem_cons.mp hp with rfl | hp <;> simp [hp], hpv⟩

/-- Every vertex of a simple cycle has an in-neighbour on the cycle. -/
lemma cycle_pred {E : Fin n → Fin n → Bool} {l : List (Fin n)} {v : Fin n}
    (hc : cycB E l = true) (hv : v ∈ l) : ∃ p ∈ l, E p v = true := by
  cases l with
  | nil => simp at hv
  | cons x xs =>
    simp only [cycB, Bool.and_eq_true, decide_eq_true_eq] at hc
    obtain ⟨⟨hchain, hclose⟩, _⟩ := hc
    rcases List.mem_cons.mp hv with rfl | hvx
    · exact ⟨xs.getLastD v, getLastD_mem v xs, hclose⟩
    · exact chainB_pred x xs hchain hvx

lemma chainB_succ {E : Fin n → Fin n → Bool} {v : Fin n} :
    ∀ (a : Fin n) (xs : List (Fin n)), chainB E a xs = true → v ∈ a :: xs →
      (∃ w ∈ xs, E v w = true) ∨ v = xs.getLastD a := by
  intro a xs
  induction xs generalizing a with
  | nil => intro _ hv; right; simpa using (List.mem_singleton.mp hv)
  | cons b ys ih =>
    simp only [chainB, Bool.and_eq_true]
    rintro ⟨hab, hch⟩ hv
    rcases List.mem_cons.mp hv with rfl | hv
    · exact Or.inl ⟨b, by simp, hab⟩
    · rcases ih b hch hv with ⟨w, hw, hvw⟩ | heq
      · exact Or.inl ⟨w, List.mem_cons_of_mem _ hw, hvw⟩
      · right; rw [List.getLastD_cons]; exact heq

/-- Every vertex of a simple cycle has an out-neighbour on the cycle. -/
lemma cycle_succ {E : Fin n → Fin n → Bool} {l : List (Fin n)} {v : Fin n}
    (hc : cycB E l = true) (hv : v ∈ l) : ∃ w ∈ l, E v w = true := by
  cases l with
  | nil => simp at hv
  | cons x xs =>
    simp only [cycB, Bool.and_eq_true, decide_eq_true_eq] at hc
    obtain ⟨⟨hchain, hclose⟩, _⟩ := hc
    rcases chainB_succ x xs hchain hv with ⟨w, hw, hvw⟩ | heq
    · exact ⟨w, List.mem_cons_of_mem _ hw, hvw⟩
    · subst heq
      exact ⟨x, by simp, hclose⟩

lemma cycB_ne_nil {E : Fin n → Fin n → Bool} {l : List (Fin n)}
    (h : cycB E l = true) : l ≠ [] := by
  intro hnil; rw [hnil] at h; simp [cycB] at h

lemma cycB_nodup {E : Fin n → Fin n → Bool} {l : List (Fin n)}
    (h : cycB E l = true) : l.Nodup := by
  cases l with
  | nil => simp [cycB] at h
  | cons x xs =>
    simp only [cycB, Bool.and_eq_true, decide_eq_true_eq] at h
    exact h.2

/-- A feedback vertex set: no simple cycle survives outside of `F`. -/
def isFVS (E : Fin n → Fin n → Bool) (F : Finset (Fin n)) : Prop :=
  ∀ l, ¬ CycIn E (Finset.univ \ F) l

lemma isFVS_iff_bounded {E : Fin n → Fin n → Bool} {F : Finset (Fin n)} :
    isFVS E F ↔ ∀ k ∈ List.range (n + 1), ∀ l ∈ tuples n k,
      ¬ CycIn E (Finset.univ \ F) l := by
  constructor
  · intro h k _ l _
    exact h l
  · intro h l hcyc
    have hlen : l.length ≤ n := by
      simpa using (cycB_nodup hcyc.1).length_le_card
    exact h l.length (List.mem_range.mpr (by omega)) l (mem_tuples.mpr rfl) hcyc

instance (E : Fin n → Fin n → Bool) (F : Finset (Fin n)) : Decidable (isFVS E F) :=
  decidable_of_iff _ isFVS_iff_bounded.symm

/-- Left fold that keeps the current element whenever `better y b` prefers the
newcomer `y`; used to model the deterministic arg-min/arg-max selections. -/
def foldPick {α : Type} (better : α → α → Bool) (b : α) (l : List α) : α :=
  l.foldl (fun b y => if better y b then y else b) b

lemma foldPick_cons {α : Type} (better : α → α → Bool) (b y : α) (ys : List α) :
    foldPick better b (y :: ys) = foldPick better (if better y b then y else b) ys := rfl

lemma foldPick_mem {α : Type} {better : α → α → Bool} :
    ∀ (l : List α) (b : α), foldPick better b l = b ∨ foldPick better b l ∈ l := by
  intro l
  induction l with
  | nil => intro b; left; rfl
  | cons y ys ih =>
    intro b
    rw [foldPick_cons]
    by_cases hb : better y b = true
    · rw [if_pos hb]
      rcases ih y with h | h
      · right; rw [h]; simp
      · right; exact List.mem_cons_of_mem _ h
    · rw [if_neg hb]
      rcases ih b with h | h
      · left; exact h
      · right; exact List.mem_cons_of_mem _ h

lemma foldPick_argmax {α : Type} (key : α → Nat) :
    ∀ (l : List α) (b : α),
      key b ≤ key (foldPick (fun y c => decide (key c < key y)) b l) ∧
      ∀ c ∈ l, key c ≤ key (foldPick (fun y c => decide (key c < key y)) b l) := by
  intro l
  induction l with
  | nil => intro b; exact ⟨Nat.le_refl _, by simp⟩
  | cons y ys ih =>
    intro b
    rw [foldPick_cons]
    by_cases hb : key b < key y
    · rw [if_pos (by simpa using hb)]
      obtain ⟨h1, h2⟩ := ih y
      refine ⟨le_trans (Nat.le_of_lt hb) h1, ?_⟩
      intro c hc
      rcases List.mem_cons.mp hc with rfl | hc
      · exact h1
      · exact h2 c hc
    · rw [if_neg (by simpa using hb)]
      obtain ⟨h1, h2⟩ := ih b
      refine ⟨h1, ?_⟩
      intro c hc
      rcases List.mem_cons.mp hc with rfl | hc
      · exact le_trans (by omega) h1
      · exact h2 c hc

/-- Combined in- plus out-degree; the tie-break of the greedy heuristic. -/
def degreeOf (E : Fin n → Fin n → Bool) (v : Fin n) : Nat :=
  ((List.finRange n).filter (fun u => E u v)).length +
    ((List.finRange n).filter (fun w => E v w)).length

/-- Key of the greedy vertex-selection heuristic of §4.5, encoded
lexicographically: shortest-cycle length first, then higher degree, then lower
id.  The claims do not depend on the quality of this heuristic, only on the
fact that it deterministically selects a vertex that lies on a cycle. -/
def greedyKey (E : Fin n → Fin n → Bool) (R : Finset (Fin n)) (v : Fin n) : Nat :=
  let len := match shortestCycle E R v with | some c => c.length | none => 0
  (len * (2 * n + 1) + (2 * n - degreeOf E v)) * (n + 1) + v.val

/-- Modelled from the spec: the vertex-selection step of the greedy feedback
vertex set (§4.5, module `_feedback_vertex_set` not among the provided
sources).  Among the vertices of `R` that lie on a cycle within `R`, pick the
one minimising `greedyKey`; none when `R` has become acyclic. -/
def greedyPick (E : Fin n → Fin n → Bool) (R : Finset (Fin n)) : Option (Fin n) :=
  match (List.finRange n).filter
      (fun v => decide (v ∈ R) && (shortestCycle E R v).isSome) with
  | [] => none
  | v :: vs => some (foldPick (fun y c => decide (greedyKey E R y < greedyKey E R c)) v vs)

lemma greedyPick_none {E : Fin n → Fin n → Bool} {R : Finset (Fin n)}
    (h : greedyPick E R = none) : ∀ v ∈ R, shortestCycle E R v = none := by
  intro v hv
  unfold greedyPick at h
  cases hf : (List.finRange n).filter
      (fun v => decide (v ∈ R) && (shortestCycle E R v).isSome) with
  | cons a as => rw [hf] at h; simp at h
  | nil =>
    have := List.filter_eq_nil_iff.mp hf v (List.mem_finRange v)
    simp only [Bool.and_eq_true, decide_eq_true_eq, not_and] at this
    cases hsc : shortestCycle E R v with
    | none => rfl
    | some c => exact absurd (by simp [hsc]) (this hv)

lemma greedyPick_mem {E : Fin n → Fin n → Bool} {R : Finset (Fin n)} {v : Fin n}
    (h : greedyPick E R = some v) : v ∈ R := by
  unfold greedyPick at h
  cases hf : (List.finRange n).filter
      (fun v => decide (v ∈ R) && (shortestCycle E R v).isSome) with
  | nil => rw [hf] at h; simp at h
  | cons a as =>
    rw [hf] at h
    have hv : v = foldPick (fun y c => decide (greedyKey E R y < greedyKey E R c)) a as := by
      simpa using h.symm
    have hmem : v ∈ a :: as := by
      rcases @foldPick_mem _ (fun y c => decide (greedyKey E R y < greedyKey E R c)) as a
        with hm | hm
      · rw [hv, hm]; simp
      · rw [hv]; exact List.mem_cons_of_mem _ hm
    have : v ∈ (List.finRange n).filter
        (fun v => decide (v ∈ R) && (shortestCycle E R v).isSome) := by
      rw [hf]; exact hmem
    have := (List.mem_filter.mp this).2
    simp only [Bool.and_eq_true, decide_eq_true_eq] at this
    exact this.1

/-- Modelled from the spec: the greedy feedback-vertex-set loop of §4.5
(module `_feedback_vertex_set` not among the provided sources), with the
per-SCC decomposition flattened into one loop over the remaining restriction;
this affects only which (unguaranteed-minimal) FVS is produced, not the
validity contract `feedback_vertex_set()` promises.  The fuel argument bounds
the iteration count by `|R|`. -/
def greedyFvsGo (E : Fin n → Fin n → Bool) :
    Nat → Finset (Fin n) → Finset (Fin n) → Finset (Fin n)
  | 0, _, F => F
  | fuel + 1, R, F =>
    match greedyPick E R with
    | none => F
    | some v => greedyFvsGo E fuel (R.erase v) (insert v F)

/-- Modelled from the spec: `RegulatoryGraph::feedback_vertex_set` (§4.5). -/
def greedyFvs (E : Fin n → Fin n → Bool) : Finset (Fin n) :=
  greedyFvsGo E n Finset.univ ∅

lemma greedyFvsGo_isFVS (E : Fin n → Fin n → Bool) :
    ∀ (fuel : Nat) (R F : Finset (Fin n)), R.card ≤ fuel → R = Finset.univ \ F →
      isFVS E (greedyFvsGo E fuel R F) := by
  intro fuel
  induction fuel with
  | zero =>
    intro R F hcard hRF l hcyc
    have hR : R = ∅ := Finset.card_eq_zero.mp (Nat.le_zero.mp hcard)
    obtain ⟨x, hx⟩ := List.exists_mem_of_ne_nil l (cycB_ne_nil hcyc.1)
    have : x ∈ R := by rw [hRF]; exact hcyc.2 x hx
    rw [hR] at this
    simp at this
  | succ fuel ih =>
    intro R F hcard hRF
    show isFVS E (match greedyPick E R with
      | none => F
      | some v => greedyFvsGo E fuel (R.erase v) (insert v F))
    cases hp : greedyPick E R with
    | none =>
      intro l hcyc
      cases hl : l with
      | nil => rw [hl] at hcyc; exact absurd hcyc.1 (by simp [cycB])
      | cons x xs =>
        rw [hl] at hcyc
        have hx : x ∈ R := by rw [hRF]; exact hcyc.2 x (by simp)
        have hsc := greedyPick_none hp x hx
        rw [hRF] at hsc
        exact shortestCycle_none hsc _ (cycThru_of_cycIn hcyc)
    | some v =>
      have hv : v ∈ R := greedyPick_mem hp
      apply ih
      · have := Finset.card_erase_of_mem hv
        have hpos : 0 < R.card := Finset.card_pos.mpr ⟨v, hv⟩
        omega
      · ext x
        simp only [Finset.mem_erase, hRF, Finset.mem_sdiff, Finset.mem_univ, true_and,
          Finset.mem_insert]
        tauto

lemma greedyFvs_isFVS (E : Fin n → Fin n → Bool) : isFVS E (greedyFvs E) := by
  apply greedyFvsGo_isFVS E n Finset.univ ∅
  · simp
  · simp

/-- Modelled from the spec: the greedy independent-cycles loop of §4.5 (module
`_independent_cycles`, not among the provided sources).  Vertices are scanned
in a fixed deterministic order; for each vertex still available, the shortest
cycle through it is emitted and its vertices removed.  The spec's
cycle-centrality scan order influences only which maximal family is found, not
the properties `exact_fvs` relies on (each member is a cycle, members are
vertex-disjoint, and emptiness coincides with acyclicity). -/
def icsGo (E : Fin n → Fin n → Bool) :
    List (Fin n) → Finset (Fin n) → List (List (Fin n))
  | [], _ => []
  | v :: vs, R =>
    if v ∈ R then
      match shortestCycle E R v with
      | some c => c :: icsGo E vs (R \ c.toFinset)
      | none => icsGo E vs R
    else icsGo E vs R

/-- Modelled from the spec: `RegulatoryGraph::independent_cycles` (§4.5). -/
def independentCycles (E : Fin n → Fin n → Bool) : List (List (Fin n)) :=
  icsGo E (List.finRange n) Finset.univ

lemma icsGo_sub (E : Fin n → Fin n → Bool) :
    ∀ (vs : List (Fin n)) (R : Finset (Fin n)) (c : List (Fin n)),
      c ∈ icsGo E vs R → CycIn E R c := by
  intro vs
  induction vs with
  | nil => intro R c hc; simp [icsGo] at hc
  | cons v vs ih =>
    intro R c hc
    unfold icsGo at hc
    by_cases hvR : v ∈ R
    · rw [if_pos hvR] at hc
      cases hsc : shortestCycle E R v with
      | none => rw [hsc] at hc; exact ih R c hc
      | some c0 =>
        rw [hsc] at hc
        rcases List.mem_cons.mp hc with rfl | hc
        · exact cycIn_of_cycThru (shortestCycle_some hsc).1
        · exact (ih _ c hc).mono (Finset.sdiff_subset)
    · rw [if_neg hvR] at hc
      exact ih R c hc

lemma icsGo_disjoint (E : Fin n → Fin n → Bool) :
    ∀ (vs : List (Fin n)) (R : Finset (Fin n)),
      (icsGo E vs R).Pairwise (fun c d => ∀ x ∈ c, x ∉ d) := by
  intro vs
  induction vs with
  | nil => intro R; simp [icsGo]
  | cons v vs ih =>
    intro R
    unfold icsGo
    by_cases hvR : v ∈ R
    · rw [if_pos hvR]
      cases hsc : shortestCycle E R v with
      | none => exact ih R
      | some c0 =>
        refine List.Pairwise.cons ?_ (ih _)
        intro d hd x hxc0 hxd
        have := (icsGo_sub E _ _ d hd).2 x hxd
        rw [Finset.mem_sdiff] at this
        exact this.2 (List.mem_toFinset.mpr hxc0)
    · rw [if_neg hvR]
      exact ih R

lemma icsGo_nil (E : Fin n → Fin n → Bool) :
    ∀ (vs : List (Fin n)) (R : Finset (Fin n)), icsGo E vs R = [] →
      ∀ v ∈ vs, v ∈ R → shortestCycle E R v = none := by
  intro vs
  induction vs with
  | nil => simp
  | cons v vs ih =>
    intro R hnil v' hv' hv'R
    unfold icsGo at hnil
    by_cases hvR : v ∈ R
    · rw [if_pos hvR] at hnil
      cases hsc : shortestCycle E R v with
      | some c0 => rw [hsc] at hnil; simp at hnil
      | none =>
        rw [hsc] at hnil
        rcases List.mem_cons.mp hv' with rfl | hv'
        · exact hsc
        · exact ih R hnil v' hv' hv'R
    · rw [if_neg hvR] at hnil
      rcases List.mem_cons.mp hv' with rfl | hv'
      · exact absurd hv'R hvR
      · exact ih R hnil v' hv' hv'R

lemma independentCycles_nil {E : Fin n → Fin n → Bool}
    (h : independentCycles E = []) : ∀ l, ¬ CycIn E Finset.univ l := by
  intro l hcyc
  cases hl : l with
  | nil => rw [hl] at hcyc; exact absurd hcyc.1 (by simp [cycB])
  | cons x xs =>
    rw [hl] at hcyc
    have hsc := icsGo_nil E (List.finRange n) Finset.univ h x (List.mem_finRange x)
      (Finset.mem_univ x)
    exact shortestCycle_none hsc _ (cycThru_of_cycIn hcyc)

lemma disjoint_cycles_card_le :
    ∀ (cs : List (List (Fin n))) (F : Finset (Fin n)),
      (∀ c ∈ cs, ∃ x ∈ c, x ∈ F) → cs.Pairwise (fun c d => ∀ x ∈ c, x ∉ d) →
      cs.length ≤ F.card := by
  intro cs
  induction cs with
  | nil => intro F _ _; simp
  | cons c cs ih =>
    intro F hhit hpair
    obtain ⟨x, hxc, hxF⟩ := hhit c (by simp)
    rcases List.pairwise_cons.mp hpair with ⟨hhead, htail⟩
    have hhit' : ∀ d ∈ cs, ∃ y ∈ d, y ∈ F.erase x := by
      intro d hd
      obtain ⟨y, hyd, hyF⟩ := hhit d (List.mem_cons_of_mem _ hd)
      refine ⟨y, hyd, Finset.mem_erase.mpr ⟨?_, hyF⟩⟩
      intro hyx
      exact hhead d hd x hxc (hyx ▸ hyd)
    have := ih (F.erase x) hhit' htail
    have hcard := Finset.card_erase_of_mem hxF
    have hpos : 0 < F.card := Finset.card_pos.mpr ⟨x, hxF⟩
    simp only [List.length_cons]
    omega

lemma fvs_hits_cycle {E : Fin n → Fin n → Bool} {F : Finset (Fin n)}
    {c : List (Fin n)} (hF : isFVS E F) (hc : CycIn E Finset.univ c) :
    ∃ x ∈ c, x ∈ F := by
  by_contra h
  push_neg at h
  exact hF c ⟨hc.1, fun x hx => Finset.mem_sdiff.mpr ⟨Finset.mem_univ x, h x hx⟩⟩

lemma ics_length_le_fvs {E : Fin n → Fin n → Bool} {F : Finset (Fin n)}
    (hF : isFVS E F) : (independentCycles E).length ≤ F.card := by
  apply disjoint_cycles_card_le
  · intro c hc
    exact fvs_hits_cycle hF ((icsGo_sub E _ _ c hc).mono (by simp))
  · exact icsGo_disjoint E _ _

/-- Regulators of `v` (vertices with an edge into `v`), ascending by id;
mirrors `RegulatoryGraph::regulators`. -/
def regulatorsOf (E : Fin n → Fin n → Bool) (v : Fin n) : List (Fin n) :=
  (List.finRange n).filter (fun u => E u v)

/-- Targets of `v` (vertices with an edge out of `v`), ascending by id;
mirrors `RegulatoryGraph::targets`. -/
def targetsOf (E : Fin n → Fin n → Bool) (v : Fin n) : List (Fin n) :=
  (List.finRange n).filter (fun w => E v w)

lemma regulatorsOf_eq_singleton {E : Fin n → Fin n → Bool} {v u : Fin n}
    (h : regulatorsOf E v = [u]) : ∀ p, E p v = true → p = u := by
  intro p hp
  have : p ∈ regulatorsOf E v :=
    List.mem_filter.mpr ⟨List.mem_finRange p, hp⟩
  rw [h] at this
  exact List.mem_singleton.mp this

lemma targetsOf_eq_singleton {E : Fin n → Fin n → Bool} {v t : Fin n}
    (h : targetsOf E v = [t]) : ∀ w, E v w = true → w = t := by
  intro w hw
  have : w ∈ targetsOf E v :=
    List.mem_filter.mpr ⟨List.mem_finRange w, hw⟩
  rw [h] at this
  exact List.mem_singleton.mp this

/-- One step of the candidate-variable preprocessing of `exact_fvs`
(mod.rs lines 214-230): skip acyclic variables, skip a variable whose unique
regulator is already a candidate, skip a variable whose unique target is
already a candidate, otherwise append it. -/
def candStep (E : Fin n → Fin n → Bool) (acc : List (Fin n)) (var : Fin n) :
    List (Fin n) :=
  if (shortestCycle E Finset.univ var).isNone then acc
  else if (match regulatorsOf E var with
           | [u] => decide (u ∈ acc)
           | _ => false) then acc
  else if (match targetsOf E var with
           | [t] => decide (t ∈ acc)
           | _ => false) then acc
  else acc ++ [var]

/-- The candidate variables retained by the preprocessing of `exact_fvs`. -/
def candidateVariables (E : Fin n → Fin n → Bool) : List (Fin n) :=
  (List.finRange n).foldl (candStep E) []

/-- The candidate variables as a set; the BDD of `exact_fvs` ranges over
exactly these variables. -/
def candFinset (E : Fin n → Fin n → Bool) : Finset (Fin n) :=
  (candidateVariables E).toFinset

lemma candStep_subset {E : Fin n → Fin n → Bool} {acc : List (Fin n)} {var : Fin n} :
    ∀ x ∈ acc, x ∈ candStep E acc var := by
  intro x hx
  unfold candStep
  split
  · exact hx
  · split
    · exact hx
    · split
      · exact hx
      · exact List.mem_append_left _ hx

lemma candFold_subset {E : Fin n → Fin n → Bool} :
    ∀ (vs acc : List (Fin n)) (x : Fin n), x ∈ acc →
      x ∈ vs.foldl (candStep E) acc := by
  intro vs
  induction vs with
  | nil => intro acc x hx; exact hx
  | cons v vs ih =>
    intro acc x hx
    exact ih (candStep E acc v) x (candStep_subset x hx)

lemma candFold_src {E : Fin n → Fin n → Bool} :
    ∀ (vs acc : List (Fin n)) (x : Fin n), x ∈ vs.foldl (candStep E) acc →
      x ∈ acc ∨ x ∈ vs := by
  intro vs
  induction vs with
  | nil => intro acc x hx; exact Or.inl hx
  | cons v vs ih =>
    intro acc x hx
    rcases ih (candStep E acc v) x hx with hx' | hx'
    · unfold candStep at hx'
      split at hx'
      · exact Or.inl hx'
      · split at hx'
        · exact Or.inl hx'
        · split at hx'
          · exact Or.inl hx'
          · rcases List.mem_append.mp hx' with h | h
            · exact Or.inl h
            · exact Or.inr (by simp [List.mem_singleton.mp h])
    · exact Or.inr (List.mem_cons_of_mem _ hx')

lemma candFold_nodup {E : Fin n → Fin n → Bool} :
    ∀ (vs acc : List (Fin n)), acc.Nodup → (∀ a ∈ acc, a ∉ vs) → vs.Nodup →
      (vs.foldl (candStep E) acc).Nodup := by
  intro vs
  induction vs with
  | nil => intro acc h _ _; exact h
  | cons v vs ih =>
    intro acc hnd hdisj hvs
    rcases List.nodup_cons.mp hvs with ⟨hvnotin, hvs'⟩
    apply ih (candStep E acc v)
    · unfold candStep
      split
      · exact hnd
      · split
        · exact hnd
        · split
          · exact hnd
          · rw [List.nodup_append]
            refine ⟨hnd, List.nodup_singleton v, ?_⟩
            intro a ha hb
            have hav : a = v := List.mem_singleton.mp hb
            subst hav
            exact hdisj a ha (by simp)
    · intro a ha
      unfold candStep at ha
      have hsrc : a ∈ acc ∨ a = v := by
        split at ha
        · exact Or.inl ha
        · split at ha
          · exact Or.inl ha
          · split at ha
            · exact Or.inl ha
            · rcases List.mem_append.mp ha with h | h
              · exact Or.inl h
              · exact Or.inr (List.mem_singleton.mp h)
      rcases hsrc with h | rfl
      · exact fun hmem => hdisj a h (List.mem_cons_of_mem _ hmem)
      · exact hvnotin
    · exact hvs'

lemma candidateVariables_nodup (E : Fin n → Fin n → Bool) :
    (candidateVariables E).Nodup := by
  apply candFold_nodup
  · exact List.nodup_nil
  · simp
  · exact List.nodup_finRange n

lemma singleton_check_true {acc l : List (Fin n)}
    (h : (match l with | [u] => decide (u ∈ acc) | _ => false) = true) :
    ∃ u, l = [u] ∧ u ∈ acc := by
  cases l with
  | nil => simp at h
  | cons u us =>
    cases us with
    | nil => exact ⟨u, rfl, by simpa using h⟩
    | cons u2 us2 => simp at h

/-- Why a vertex was dropped by the preprocessing: it is acyclic, or its unique
regulator is a retained candidate, or its unique target is. -/
lemma candidateVariables_skip {E : Fin n → Fin n → Bool} :
    ∀ (vs acc : List (Fin n)) (v : Fin n), v ∈ vs →
      v ∉ vs.foldl (candStep E) acc →
      (shortestCycle E Finset.univ v = none ∨
        (∃ u, regulatorsOf E v = [u] ∧ u ∈ vs.foldl (candStep E) acc) ∨
        (∃ t, targetsOf E v = [t] ∧ t ∈ vs.foldl (candStep E) acc)) := by
  intro vs
  induction vs with
  | nil => simp
  | cons w ws ih =>
    intro acc v hv hnot
    rcases List.mem_cons.mp hv with rfl | hv
    · by_cases h1 : (shortestCycle E Finset.univ v).isNone
      · exact Or.inl (Option.isNone_iff_eq_none.mp h1)
      · by_cases h2 : (match regulatorsOf E v with
            | [u] => decide (u ∈ acc)
            | _ => false) = true
        · obtain ⟨u, hreg, hu⟩ := singleton_check_true h2
          refine Or.inr (Or.inl ⟨u, hreg, ?_⟩)
          exact candFold_subset ws _ u (candStep_subset u hu)
        · by_cases h3 : (match targetsOf E v with
              | [t] => decide (t ∈ acc)
              | _ => false) = true
          · obtain ⟨t, htar, ht⟩ := singleton_check_true h3
            refine Or.inr (Or.inr ⟨t, htar, ?_⟩)
            exact candFold_subset ws _ t (candStep_subset t ht)
          · have hstep : candStep E acc v = acc ++ [v] := by
              unfold candStep
              rw [if_neg h1, if_neg (by simpa using h2), if_neg (by simpa using h3)]
            exact absurd
              (candFold_subset ws _ v (by rw [hstep]; simp)) hnot
    · exact ih (candStep E acc w) v hv hnot

/-- All subsets of the vertices named in a list; models the assignment space
of the BDD that `exact_fvs` builds over the candidate variables
(`mk_sat_exactly_k` before the cardinality filter). -/
def subsetsList : List (Fin n) → List (Finset (Fin n))
  | [] => [∅]
  | x :: xs => subsetsList xs ++ (subsetsList xs).map (insert x)

lemma subsetsList_sound :
    ∀ (l : List (Fin n)) (S : Finset (Fin n)), S ∈ subsetsList l → S ⊆ l.toFinset := by
  intro l
  induction l with
  | nil =>
    intro S hS
    rw [List.mem_singleton.mp hS]
    simp
  | cons x xs ih =>
    intro S hS
    rcases List.mem_append.mp hS with h | h
    · intro y hy
      rw [List.toFinset_cons]
      exact Finset.mem_insert_of_mem (ih S h hy)
    · obtain ⟨T, hT, rfl⟩ := List.mem_map.mp h
      intro y hy
      rw [List.toFinset_cons]
      rcases Finset.mem_insert.mp hy with rfl | hy
      · exact Finset.mem_insert_self _ _
      · exact Finset.mem_insert_of_mem (ih T hT hy)

lemma subsetsList_complete :
    ∀ (l : List (Fin n)), l.Nodup → ∀ S : Finset (Fin n), S ⊆ l.toFinset →
      S ∈ subsetsList l := by
  intro l
  induction l with
  | nil =>
    intro _ S hS
    have : S = ∅ := Finset.subset_empty.mp (by simpa using hS)
    rw [this]
    simp [subsetsList]
  | cons x xs ih =>
    intro hnd S hS
    rcases List.nodup_cons.mp hnd with ⟨hxnot, hnd'⟩
    by_cases hxS : x ∈ S
    · refine List.mem_append_right _ (List.mem_map.mpr ⟨S.erase x, ?_, Finset.insert_erase hxS⟩)
      apply ih hnd'
      intro y hy
      rcases Finset.mem_erase.mp hy with ⟨hne, hyS⟩
      have := hS hyS
      rw [List.toFinset_cons] at this
      exact (Finset.mem_insert.mp this).resolve_left hne
    · refine List.mem_append_left _ (ih hnd' S ?_)
      intro y hy
      have := hS hy
      rw [List.toFinset_cons] at this
      rcases Finset.mem_insert.mp this with rfl | h
      · exact absurd hy hxS
      · exact h

/-- The assignment list backing the fresh predicate `cands_k` of stratum `k`:
all subsets of the candidate variables of cardinality exactly `k`
(`mk_sat_exactly_k(k, all_vars)` in mod.rs line 293). -/
def initC (E : Fin n → Fin n → Bool) (k : Nat) : List (Finset (Fin n)) :=
  (subsetsList (candidateVariables E)).filter (fun S => decide (S.card = k))

lemma mem_initC_elim {E : Fin n → Fin n → Bool} {k : Nat} {S : Finset (Fin n)}
    (h : S ∈ initC E k) : S ⊆ candFinset E ∧ S.card = k := by
  rcases List.mem_filter.mp h with ⟨h1, h2⟩
  exact ⟨subsetsList_sound _ S h1, by simpa using h2⟩

lemma mem_initC_intro {E : Fin n → Fin n → Bool} {k : Nat} {S : Finset (Fin n)}
    (hsub : S ⊆ candFinset E) (hcard : S.card = k) : S ∈ initC E k :=
  List.mem_filter.mpr
    ⟨subsetsList_complete _ (candidateVariables_nodup E) S hsub, by simpa using hcard⟩

/-- The conflict-cycle scan of `exact_fvs` (mod.rs lines 313-321): for every
variable of `V \ F` in descending id order, the shortest cycle through it
within the restriction `V \ F`. -/
def conflictCycles (E : Fin n → Fin n → Bool) (F : Finset (Fin n)) :
    List (List (Fin n)) :=
  (List.finRange n).reverse.filterMap (fun v =>
    if v ∈ Finset.univ \ F then shortestCycle E (Finset.univ \ F) v else none)

lemma conflictCycles_mem {E : Fin n → Fin n → Bool} {F : Finset (Fin n)}
    {c : List (Fin n)} (h : c ∈ conflictCycles E F) :
    ∃ v ∈ Finset.univ \ F, shortestCycle E (Finset.univ \ F) v = some c := by
  obtain ⟨v, _, hv⟩ := List.mem_filterMap.mp h
  by_cases hvF : v ∈ Finset.univ \ F
  · rw [if_pos hvF] at hv
    exact ⟨v, hvF, hv⟩
  · rw [if_neg hvF] at hv
    simp at hv

lemma conflictCycles_complete {E : Fin n → Fin n → Bool} {F : Finset (Fin n)}
    {v : Fin n} {c : List (Fin n)} (hvF : v ∈ Finset.univ \ F)
    (h : shortestCycle E (Finset.univ \ F) v = some c) : c ∈ conflictCycles E F :=
  List.mem_filterMap.mpr
    ⟨v, List.mem_reverse.mpr (List.mem_finRange v), by rw [if_pos hvF]; exact h⟩

lemma conflictCycles_cycIn {E : Fin n → Fin n → Bool} {F : Finset (Fin n)}
    {c : List (Fin n)} (h : c ∈ conflictCycles E F) :
    CycIn E (Finset.univ \ F) c := by
  obtain ⟨v, _, hv⟩ := conflictCycles_mem h
  exact cycIn_of_cycThru (shortestCycle_some hv).1

lemma conflictCycles_nil_isFVS {E : Fin n → Fin n → Bool} {F : Finset (Fin n)}
    (h : conflictCycles E F = []) : isFVS E F := by
  intro l hcyc
  cases hl : l with
  | nil => rw [hl] at hcyc; exact absurd hcyc.1 (by simp [cycB])
  | cons x xs =>
    rw [hl] at hcyc
    have hx : x ∈ Finset.univ \ F := hcyc.2 x (by simp)
    have := List.filterMap_eq_nil_iff.mp h x (List.mem_reverse.mpr (List.mem_finRange x))
    rw [if_pos hx] at this
    exact shortestCycle_none this _ (cycThru_of_cycIn hcyc)

/-- Maximum vertex id on a cycle; the sort key of the conflict-cycle
tie-break (`a.iter().max()` in mod.rs lines 329-331). -/
def cycKey (c : List (Fin n)) : Nat :=
  c.foldr (fun v m => Nat.max v.val m) 0

/-- The conflict cycle `exact_fvs` asserts: the code stably sorts the conflict
cycles by descending maximum vertex id and takes element 0, i.e. the first
cycle attaining the maximal `cycKey`; this fold computes the same element. -/
def chooseCycle (cs : List (List (Fin n))) : List (Fin n) :=
  match cs with
  | [] => []
  | c :: rest => foldPick (fun y b => decide (cycKey b < cycKey y)) c rest

lemma chooseCycle_mem {cs : List (List (Fin n))} (h : cs ≠ []) :
    chooseCycle cs ∈ cs := by
  cases cs with
  | nil => exact absurd rfl h
  | cons c rest =>
    show foldPick _ c rest ∈ c :: rest
    rcases @foldPick_mem _ (fun y b => decide (cycKey b < cycKey y)) rest c with
      hm | hm
    · rw [hm]; simp
    · exact List.mem_cons_of_mem _ hm

lemma chooseCycle_max {cs : List (List (Fin n))} :
    ∀ c ∈ cs, cycKey c ≤ cycKey (chooseCycle cs) := by
  cases cs with
  | nil => simp
  | cons c rest =>
    intro d hd
    obtain ⟨h1, h2⟩ := foldPick_argmax cycKey rest c
    rcases List.mem_cons.mp hd with rfl | hd
    · exact h1
    · exact h2 d hd

/-- The disjunctive clause built from a conflict cycle
(`build_cycle_clause`, mod.rs lines 261-273): a candidate assignment `S`
satisfies it when some vertex of the cycle that is a BDD (candidate) variable
is selected by `S`. -/
def clauseChk (E : Fin n → Fin n → Bool) (cycle : List (Fin n))
    (S : Finset (Fin n)) : Bool :=
  cycle.any (fun x => decide (x ∈ candFinset E) && decide (x ∈ S))

lemma clauseChk_false_of_conflict {E : Fin n → Fin n → Bool} {F : Finset (Fin n)}
    {cycle : List (Fin n)} (h : cycle ∈ conflictCycles E F) :
    clauseChk E cycle F = false := by
  have hcyc := conflictCycles_cycIn h
  rw [Bool.eq_false_iff]
  intro hany
  obtain ⟨x, hx, hxx⟩ := List.any_eq_true.mp hany
  simp only [Bool.and_eq_true, decide_eq_true_eq] at hxx
  have := hcyc.2 x hx
  rw [Finset.mem_sdiff] at this
  exact this.2 hxx.2

lemma clauseChk_true_of_fvs {E : Fin n → Fin n → Bool} {F Fstar : Finset (Fin n)}
    {cycle : List (Fin n)} (h : cycle ∈ conflictCycles E F)
    (hstar : isFVS E Fstar) (hsub : Fstar ⊆ candFinset E) :
    clauseChk E cycle Fstar = true := by
  have hcyc := (conflictCycles_cycIn h).mono (Finset.sdiff_subset)
  obtain ⟨x, hx, hxF⟩ := fvs_hits_cycle hstar hcyc
  exact List.any_eq_true.mpr ⟨x, hx, by simp [hsub hxF, hxF]⟩

/-- The inner cutting-plane loop of `exact_fvs` (mod.rs lines 308-349):
extract a candidate assignment (the modelled `most_negative_valuation` pick is
the head of the assignment list), scan for conflict cycles, return the
candidate when none exists, otherwise conjoin the clause of the chosen
conflict cycle and repeat.  The fuel argument bounds the iteration count; one
more than the assignment-list length always suffices because every round
discards at least the extracted assignment. -/
def innerLoop (E : Fin n → Fin n → Bool) :
    Nat → List (Finset (Fin n)) → Option (Finset (Fin n))
  | 0, _ => none
  | _ + 1, [] => none
  | fuel + 1, F :: rest =>
    if conflictCycles E F = [] then some F
    else innerLoop E fuel
      ((F :: rest).filter (clauseChk E (chooseCycle (conflictCycles E F))))

/-- The inner loop launched with enough fuel to run to completion. -/
def innerLoopTop (E : Fin n → Fin n → Bool) (C : List (Finset (Fin n))) :
    Option (Finset (Fin n)) :=
  innerLoop E (C.length + 1) C

lemma innerLoop_filter_lt {E : Fin n → Fin n → Bool} {F : Finset (Fin n)}
    (rest : List (Finset (Fin n))) (hne : conflictCycles E F ≠ []) :
    ((F :: rest).filter (clauseChk E (chooseCycle (conflictCycles E F)))).length <
      (F :: rest).length := by
  apply List.length_filter_lt_length_iff_exists.mpr
  refine ⟨F, by simp, ?_⟩
  rw [clauseChk_false_of_conflict (chooseCycle_mem hne)]
  simp

lemma innerLoop_some {E : Fin n → Fin n → Bool} :
    ∀ (fuel : Nat) (C : List (Finset (Fin n))) (F : Finset (Fin n)),
      C.length < fuel → innerLoop E fuel C = some F →
      F ∈ C ∧ conflictCycles E F = [] := by
  intro fuel
  induction fuel with
  | zero => intro C F h; omega
  | succ fuel ih =>
    intro C F hlen h
    cases C with
    | nil => exact absurd h (by simp [innerLoop])
    | cons F0 rest =>
      unfold innerLoop at h
      by_cases hconf : conflictCycles E F0 = []
      · rw [if_pos hconf] at h
        cases h
        exact ⟨by simp, hconf⟩
      · rw [if_neg hconf] at h
        have hflt := innerLoop_filter_lt rest hconf
        have hlen' :
            ((F0 :: rest).filter
              (clauseChk E (chooseCycle (conflictCycles E F0)))).length < fuel := by
          simp only [List.length_cons] at hlen hflt ⊢
          omega
        obtain ⟨hmem, hc⟩ := ih _ F hlen' h
        exact ⟨List.mem_of_mem_filter hmem, hc⟩

lemma innerLoop_none {E : Fin n → Fin n → Bool} :
    ∀ (fuel : Nat) (C : List (Finset (Fin n))),
      C.length < fuel → innerLoop E fuel C = none →
      ∀ Fstar : Finset (Fin n), isFVS E Fstar → Fstar ⊆ candFinset E →
        Fstar ∉ C := by
  intro fuel
  induction fuel with
  | zero => intro C h; omega
  | succ fuel ih =>
    intro C hlen h Fstar hfvs hsub hmem
    cases C with
    | nil => simp at hmem
    | cons F0 rest =>
      unfold innerLoop at h
      by_cases hconf : conflictCycles E F0 = []
      · rw [if_pos hconf] at h
        simp at h
      · rw [if_neg hconf] at h
        have hflt := innerLoop_filter_lt rest hconf
        have hlen' :
            ((F0 :: rest).filter
              (clauseChk E (chooseCycle (conflictCycles E F0)))).length < fuel := by
          simp only [List.length_cons] at hlen hflt ⊢
          omega
        refine ih _ hlen' h Fstar hfvs hsub ?_
        exact List.mem_filter.mpr
          ⟨hmem, clauseChk_true_of_fvs (chooseCycle_mem hconf) hfvs hsub⟩

/-- The outer cardinality-stratified loop of `exact_fvs` (mod.rs lines
289-350): for each stratum `k` in order, run the inner loop on the fresh
exactly-`k` assignment space; the first stratum that produces a feasible
candidate wins. -/
def strata (E : Fin n → Fin n → Bool) (ks : List Nat) : Option (Finset (Fin n)) :=
  firstSome (fun k => innerLoopTop E (initC E k)) ks

/-- Shallow embedding of `RegulatoryGraph::exact_fvs` (mod.rs lines 212-353):
preprocessing to candidate variables, early exits on an acyclic graph and on
matching greedy bounds, then the cutting-plane search over strata
`|ICS| .. |greedy FVS| - 1`, falling back to the greedy FVS. -/
def exactFvs (E : Fin n → Fin n → Bool) : Finset (Fin n) :=
  if independentCycles E = [] then ∅
  else if (independentCycles E).length = (greedyFvs E).card then greedyFvs E
  else
    match strata E (List.range' (independentCycles E).length
        ((greedyFvs E).card - (independentCycles E).length)) with
    | some F => F
    | none => greedyFvs E

lemma cand_skip_top {E : Fin n → Fin n → Bool} {v : Fin n}
    (h : v ∉ candFinset E) :
    shortestCycle E Finset.univ v = none ∨
      (∃ u, regulatorsOf E v = [u] ∧ u ∈ candFinset E) ∨
      (∃ t, targetsOf E v = [t] ∧ t ∈ candFinset E) := by
  have hmem : v ∉ (List.finRange n).foldl (candStep E) [] := by
    intro hv
    exact h (by
      unfold candFinset candidateVariables
      exact List.mem_toFinset.mpr hv)
  have := candidateVariables_skip (List.finRange n) [] v (List.mem_finRange v) hmem
  rcases this with h1 | ⟨u, hu, humem⟩ | ⟨t, ht, htmem⟩
  · exact Or.inl h1
  · exact Or.inr (Or.inl ⟨u, hu, by
      unfold candFinset candidateVariables
      exact List.mem_toFinset.mpr humem⟩)
  · exact Or.inr (Or.inr ⟨t, ht, by
      unfold candFinset candidateVariables
      exact List.mem_toFinset.mpr htmem⟩)

/-- One exchange step towards a feedback vertex set inside the candidate
variables: a member outside the candidates can be dropped (acyclic case) or
traded for its unique regulator or target without growing the set. -/
lemma fvs_swap_step {E : Fin n → Fin n → Bool} {G : Finset (Fin n)}
    (hfvs : isFVS E G) {v : Fin n} (hvF : v ∈ G) (hvC : v ∉ candFinset E) :
    ∃ F₂ : Finset (Fin n), isFVS E F₂ ∧ F₂.card ≤ G.card ∧
      F₂ \ candFinset E = (G \ candFinset E).erase v := by
  have hpos : 0 < G.card := Finset.card_pos.mpr ⟨v, hvF⟩
  rcases cand_skip_top hvC with hacyc | ⟨u, hreg, huC⟩ | ⟨t, htar, htC⟩
  · refine ⟨G.erase v, ?_, Finset.card_erase_le, ?_⟩
    · intro l hcyc
      by_cases hvl : v ∈ l
      · obtain ⟨l', hc', hhead', hmem'⟩ := cycB_rotate hcyc.1 hvl
        have hthru : cycThruB E Finset.univ v l' = true :=
          cycThruB_iff.mpr ⟨hc', hhead', fun x _ => Finset.mem_univ x⟩
        exact shortestCycle_none hacyc l' hthru
      · apply hfvs l
        refine ⟨hcyc.1, fun x hx => ?_⟩
        have := hcyc.2 x hx
        rw [Finset.mem_sdiff] at this ⊢
        refine ⟨this.1, fun hxF => this.2 (Finset.mem_erase.mpr ⟨?_, hxF⟩)⟩
        intro hxv
        exact hvl (hxv ▸ hx)
    · ext x
      simp only [Finset.mem_sdiff, Finset.mem_erase]
      tauto
  · have huv : u ≠ v := fun h => hvC (h ▸ huC)
    refine ⟨insert u (G.erase v), ?_, ?_, ?_⟩
    · intro l hcyc
      have hul : u ∉ l := by
        intro hul
        have := hcyc.2 u hul
        rw [Finset.mem_sdiff] at this
        exact this.2 (Finset.mem_insert_self u _)
      have hvl : v ∉ l := by
        intro hvl
        obtain ⟨p, hp, hpv⟩ := cycle_pred hcyc.1 hvl
        have : p = u := regulatorsOf_eq_singleton hreg p hpv
        exact hul (this ▸ hp)
      apply hfvs l
      refine ⟨hcyc.1, fun x hx => ?_⟩
      have := hcyc.2 x hx
      rw [Finset.mem_sdiff] at this ⊢
      refine ⟨this.1, fun hxF => this.2 ?_⟩
      apply Finset.mem_insert_of_mem
      refine Finset.mem_erase.mpr ⟨?_, hxF⟩
      intro hxv
      exact hvl (hxv ▸ hx)
    · have h1 := Finset.card_insert_le u (G.erase v)
      have h2 := Finset.card_erase_of_mem hvF
      omega
    · ext x
      simp only [Finset.mem_sdiff, Finset.mem_insert, Finset.mem_erase]
      constructor
      · rintro ⟨hx, hxC⟩
        rcases hx with rfl | ⟨hxv, hxF⟩
        · exact absurd huC hxC
        · exact ⟨hxv, hxF, hxC⟩
      · rintro ⟨hxv, hxF, hxC⟩
        exact ⟨Or.inr ⟨hxv, hxF⟩, hxC⟩
  · have htv : t ≠ v := fun h => hvC (h ▸ htC)
    refine ⟨insert t (G.erase v), ?_, ?_, ?_⟩
    · intro l hcyc
      have htl : t ∉ l := by
        intro htl
        have := hcyc.2 t htl
        rw [Finset.mem_sdiff] at this
        exact this.2 (Finset.mem_insert_self t _)
      have hvl : v ∉ l := by
        intro hvl
        obtain ⟨w, hw, hvw⟩ := cycle_succ hcyc.1 hvl
        have : w = t := targetsOf_eq_singleton htar w hvw
        exact htl (this ▸ hw)
      apply hfvs l
      refine ⟨hcyc.1, fun x hx => ?_⟩
      have := hcyc.2 x hx
      rw [Finset.mem_sdiff] at this ⊢
      refine ⟨this.1, fun hxF => this.2 ?_⟩
      apply Finset.mem_insert_of_mem
      refine Finset.mem_erase.mpr ⟨?_, hxF⟩
      intro hxv
      exact hvl (hxv ▸ hx)
    · have h1 := Finset.card_insert_le t (G.erase v)
      have h2 := Finset.card_erase_of_mem hvF
      omega
    · ext x
      simp only [Finset.mem_sdiff, Finset.mem_insert, Finset.mem_erase]
      constructor
      · rintro ⟨hx, hxC⟩
        rcases hx with rfl | ⟨hxv, hxF⟩
        · exact absurd htC hxC
        · exact ⟨hxv, hxF, hxC⟩
      · rintro ⟨hxv, hxF, hxC⟩
        exact ⟨Or.inr ⟨hxv, hxF⟩, hxC⟩

/-- Every feedback vertex set can be replaced by one inside the candidate
variables that is no larger: the preprocessing of `exact_fvs` loses no optimal
solution. -/
lemma fvs_to_candidates {E : Fin n → Fin n → Bool} :
    ∀ (m : Nat) (G : Finset (Fin n)), (G \ candFinset E).card ≤ m →
      isFVS E G →
      ∃ F₂ : Finset (Fin n), isFVS E F₂ ∧ F₂ ⊆ candFinset E ∧ F₂.card ≤ G.card := by
  intro m
  induction m with
  | zero =>
    intro G hm hfvs
    have : G \ candFinset E = ∅ := Finset.card_eq_zero.mp (Nat.le_zero.mp hm)
    exact ⟨G, hfvs, Finset.sdiff_eq_empty_iff_subset.mp this, Nat.le_refl _⟩
  | succ m ih =>
    intro G hm hfvs
    by_cases hsub : G ⊆ candFinset E
    · exact ⟨G, hfvs, hsub, Nat.le_refl _⟩
    · obtain ⟨v, hv⟩ := Finset.sdiff_nonempty.mpr hsub
      have hvF : v ∈ G := (Finset.mem_sdiff.mp hv).1
      have hvC : v ∉ candFinset E := (Finset.mem_sdiff.mp hv).2
      obtain ⟨F₂, hfvs₂, hcard₂, hmeasure⟩ := fvs_swap_step hfvs hvF hvC
      have hm₂ : (F₂ \ candFinset E).card ≤ m := by
        rw [hmeasure]
        have := Finset.card_erase_of_mem hv
        have hpos : 0 < (G \ candFinset E).card := Finset.card_pos.mpr ⟨v, hv⟩
        omega
      obtain ⟨F₃, hfvs₃, hsub₃, hcard₃⟩ := ih F₂ hm₂ hfvs₂
      exact ⟨F₃, hfvs₃, hsub₃, le_trans hcard₃ hcard₂⟩

lemma innerLoopTop_some {E : Fin n → Fin n → Bool} {C : List (Finset (Fin n))}
    {F : Finset (Fin n)} (h : innerLoopTop E C = some F) :
    F ∈ C ∧ conflictCycles E F = [] :=
  innerLoop_some _ _ _ (Nat.lt_succ_self _) h

lemma innerLoopTop_none {E : Fin n → Fin n → Bool} {C : List (Finset (Fin n))}
    (h : innerLoopTop E C = none) {Fstar : Finset (Fin n)}
    (hfvs : isFVS E Fstar) (hsub : Fstar ⊆ candFinset E) : Fstar ∉ C :=
  innerLoop_none _ _ (Nat.lt_succ_self _) h Fstar hfvs hsub

/-- No feedback vertex set inside the candidate variables has a cardinality
falling in an exhausted stratum. -/
lemma stratum_exhausted {E : Fin n → Fin n → Bool} {k : Nat}
    (h : innerLoopTop E (initC E k) = none) {Fstar : Finset (Fin n)}
    (hfvs : isFVS E Fstar) (hsub : Fstar ⊆ candFinset E) : Fstar.card ≠ k := by
  intro hcard
  exact innerLoopTop_none h hfvs hsub (mem_initC_intro hsub hcard)

/-- C2 (Exact FVS feasibility): the set returned by `exact_fvs` is a feedback
vertex set — removing it leaves the regulatory graph without any simple
cycle. -/
theorem exact_fvs_is_feedback_vertex_set (n : Nat) (E : Fin n → Fin n → Bool) :
    isFVS E (exactFvs E) := by
  unfold exactFvs
  by_cases h0 : independentCycles E = []
  · rw [if_pos h0]
    intro l hcyc
    exact independentCycles_nil h0 l (hcyc.mono (Finset.sdiff_subset))
  · rw [if_neg h0]
    by_cases h1 : (independentCycles E).length = (greedyFvs E).card
    · rw [if_pos h1]
      exact greedyFvs_isFVS E
    · rw [if_neg h1]
      cases hstrata : strata E (List.range' (independentCycles E).length
          ((greedyFvs E).card - (independentCycles E).length)) with
      | some F =>
        obtain ⟨k, _, hsome, _⟩ :=
          firstSome_eq_some (List.pairwise_le_range' _ _) hstrata
        exact conflictCycles_nil_isFVS (innerLoopTop_some hsome).2
      | none =>
        exact greedyFvs_isFVS E

/-- C1 (Exact FVS minimality): no feedback vertex set is smaller than the one
returned by `exact_fvs`. -/
theorem exact_fvs_minimum_cardinality (n : Nat) (E : Fin n → Fin n → Bool)
    (G : Finset (Fin n)) (h : isFVS E G) : (exactFvs E).card ≤ G.card := by
  unfold exactFvs
  by_cases h0 : independentCycles E = []
  · rw [if_pos h0]
    simp
  · rw [if_neg h0]
    by_cases h1 : (independentCycles E).length = (greedyFvs E).card
    · rw [if_pos h1]
      rw [← h1]
      exact ics_length_le_fvs h
    · rw [if_neg h1]
      have hminmax : (independentCycles E).length ≤ (greedyFvs E).card :=
        ics_length_le_fvs (greedyFvs_isFVS E)
      obtain ⟨F₂, hfvs₂, hsub₂, hcard₂⟩ :=
        fvs_to_candidates (G \ candFinset E).card G (Nat.le_refl _) h
      have hminF₂ : (independentCycles E).length ≤ F₂.card := ics_length_le_fvs hfvs₂
      cases hstrata : strata E (List.range' (independentCycles E).length
          ((greedyFvs E).card - (independentCycles E).length)) with
      | some F =>
        obtain ⟨k, hk, hsome, hearlier⟩ :=
          firstSome_eq_some (List.pairwise_le_range' _ _) hstrata
        obtain ⟨hFk, _⟩ := innerLoopTop_some hsome
        have hcardF : F.card = k := (mem_initC_elim hFk).2
        have hkub : k < (greedyFvs E).card := by
          have := (List.mem_range'_1.mp hk).2
          omega
        show F.card ≤ G.card
        have hkle : k ≤ F₂.card := by
          by_contra hcon
          push_neg at hcon
          have hmem : F₂.card ∈ List.range' (independentCycles E).length
              ((greedyFvs E).card - (independentCycles E).length) := by
            rw [List.mem_range'_1]
            omega
          exact stratum_exhausted (hearlier F₂.card hmem hcon) hfvs₂ hsub₂ rfl
        omega
      | none =>
        show (greedyFvs E).card ≤ G.card
        have hnone := firstSome_eq_none hstrata
        have hge : (greedyFvs E).card ≤ F₂.card := by
          by_contra hcon
          push_neg at hcon
          have hmem : F₂.card ∈ List.range' (independentCycles E).length
              ((greedyFvs E).card - (independentCycles E).length) := by
            rw [List.mem_range'_1]
            omega
          exact stratum_exhausted (hnone F₂.card hmem) hfvs₂ hsub₂ rfl
        omega

/-- C6 (conflict-cycle separation step of the inner loop): the scan collects
exactly the shortest cycles through the vertices of `V \ F` within `V \ F`;
when conflicts exist the cycle attaining the maximal vertex id is chosen, its
clause keeps exactly the candidate assignments selecting a vertex of the
chosen cycle, and the loop either returns `F` (no conflicts) or recurses on
the clause-filtered assignment space. -/
theorem conflict_cycle_separation_step (n : Nat) (E : Fin n → Fin n → Bool)
    (F : Finset (Fin n)) :
    (∀ c ∈ conflictCycles E F, ∃ v ∈ Finset.univ \ F,
        shortestCycle E (Finset.univ \ F) v = some c) ∧
    (∀ v ∈ Finset.univ \ F, ∀ c, shortestCycle E (Finset.univ \ F) v = some c →
        c ∈ conflictCycles E F ∧ CycIn E (Finset.univ \ F) c ∧
        ∀ l, cycThruB E (Finset.univ \ F) v l = true → c.length ≤ l.length) ∧
    (conflictCycles E F ≠ [] →
        chooseCycle (conflictCycles E F) ∈ conflictCycles E F ∧
        ∀ c ∈ conflictCycles E F, cycKey c ≤ cycKey (chooseCycle (conflictCycles E F))) ∧
    (∀ S : Finset (Fin n), S ⊆ candFinset E →
        (clauseChk E (chooseCycle (conflictCycles E F)) S = true ↔
          ∃ x ∈ chooseCycle (conflictCycles E F), x ∈ S)) ∧
    (∀ (fuel : Nat) (rest : List (Finset (Fin n))), conflictCycles E F = [] →
        innerLoop E (fuel + 1) (F :: rest) = some F) ∧
    (∀ (fuel : Nat) (rest : List (Finset (Fin n))), conflictCycles E F ≠ [] →
        innerLoop E (fuel + 1) (F :: rest) =
          innerLoop E fuel ((F :: rest).filter
            (clauseChk E (chooseCycle (conflictCycles E F))))) := by
  refine ⟨?_, ?_, ?_, ?_, ?_, ?_⟩
  · intro c hc
    exact conflictCycles_mem hc
  · intro v hv c hc
    exact ⟨conflictCycles_complete hv hc,
      cycIn_of_cycThru (shortestCycle_some hc).1, (shortestCycle_some hc).2⟩
  · intro hne
    exact ⟨chooseCycle_mem hne, chooseCycle_max⟩
  · intro S hS
    constructor
    · intro h
      obtain ⟨x, hx, hxx⟩ := List.any_eq_true.mp h
      simp only [Bool.and_eq_true, decide_eq_true_eq] at hxx
      exact ⟨x, hx, hxx.2⟩
    · rintro ⟨x, hx, hxS⟩
      exact List.any_eq_true.mpr ⟨x, hx, by simp [hS hxS, hxS]⟩
  · intro fuel rest hconf
    unfold innerLoop
    rw [if_pos hconf]
  · intro fuel rest hconf
    conv_lhs => rw [innerLoop]
    rw [if_neg hconf]

/-- Two-vertex graph with the single cycle `0 <-> 1`; concrete instance for
witnesses. -/
def exampleGraph2 : Fin 2 → Fin 2 → Bool := fun a b => a != b

/-- Four-vertex graph with the two disjoint cycles `0 <-> 1` and `2 <-> 3`;
concrete instance for witnesses. -/
def exampleGraph4 : Fin 4 → Fin 4 → Bool := fun a b =>
  (a == 0 && b == 1) || (a == 1 && b == 0) || (a == 2 && b == 3) || (a == 3 && b == 2)

/-- Witness for C1 at a concrete input: on the two-cycle graph, `{0}` is a
feedback vertex set and the set computed by `exact_fvs` is no larger. -/
theorem exact_fvs_minimum_cardinality_witness :
    isFVS exampleGraph2 {0} ∧ (exactFvs exampleGraph2).card ≤ ({0} : Finset (Fin 2)).card :=
  ⟨by decide, exact_fvs_minimum_cardinality 2 exampleGraph2 {0} (by decide)⟩

/-- Witness for C6 at a concrete input: on the double-two-cycle graph with the
empty candidate FVS, the chosen conflict cycle is one of the collected
conflict cycles, maximises the vertex-id key, and its clause is satisfied by a
candidate set exactly when the set selects a vertex of the cycle. -/
theorem conflict_cycle_separation_step_witness :
    chooseCycle (conflictCycles exampleGraph4 ∅) ∈ conflictCycles exampleGraph4 ∅ ∧
    (∀ c ∈ conflictCycles exampleGraph4 ∅,
        cycKey c ≤ cycKey (chooseCycle (conflictCycles exampleGraph4 ∅))) ∧
    (clauseChk exampleGraph4 (chooseCycle (conflictCycles exampleGraph4 ∅)) {2} = true ↔
      ∃ x ∈ chooseCycle (conflictCycles exampleGraph4 ∅), x ∈ ({2} : Finset (Fin 4))) :=
  ⟨((conflict_cycle_separation_step 4 exampleGraph4 ∅).2.2.1 (by decide)).1,
    ((conflict_cycle_separation_step 4 exampleGraph4 ∅).2.2.1 (by decide)).2,
    (conflict_cycle_separation_step 4 exampleGraph4 ∅).2.2.2.1 {2} (by decide)⟩

/-- Sign of a regulation edge (mod.rs lines 36-40). -/
inductive Sign where
  | Positive
  | Negative
deriving DecidableEq

/-- Sign addition (the `impl Add for Sign` of mod.rs lines 52-63), matching
the four source cases verbatim. -/
def Sign.add : Sign → Sign → Sign
  | .Positive, .Positive => .Positive
  | .Negative, .Negative => .Positive
  | .Positive, .Negative => .Negative
  | .Negative, .Positive => .Negative

/-- C7 (Sign-sum group law): sign addition is the parity group — associative,
with `Positive` as right identity, `Negative` self-inverse, and mixed operands
giving `Negative`. -/
theorem sign_add_parity_group :
    (∀ a b c : Sign, Sign.add (Sign.add a b) c = Sign.add a (Sign.add b c)) ∧
    (∀ a : Sign, Sign.add a Sign.Positive = a) ∧
    Sign.add Sign.Negative Sign.Negative = Sign.Positive ∧
    Sign.add Sign.Positive Sign.Negative = Sign.Negative ∧
    Sign.add Sign.Negative Sign.Positive = Sign.Negative := by
  refine ⟨?_, ?_, rfl, rfl, rfl⟩
  · intro a b c
    cases a <;> cases b <;> cases c <;> rfl
  · intro a
    cases a <;> rfl

end SdGraph

namespace Oracle

/-- Result type of the decision oracle, mirroring `z3::SatResult` with its
three answers `Sat` (with a model), `Unsat` and `Unknown`
(mod.rs lines 156-164). -/
inductive SatResult (m : Nat) where
  | sat (model : Fin m → Bool)
  | unsat
  | unknown

/-- Modelled from the spec: the assertion language the exact-FVS solver feeds
the oracle (§4.6 and §6.3) — the exactly-k cardinality constraint
(`Bool::pb_eq` with unit coefficients) and disjunctions of variables. -/
inductive PBAssert (m : Nat) where
  | exactlyK (k : Nat)
  | clause (vars : List (Fin m))

def evalAssert {m : Nat} (a : Fin m → Bool) : PBAssert m → Bool
  | .exactlyK k => decide ((List.finRange m).countP (fun i => a i) = k)
  | .clause vs => vs.any (fun v => a v)

def satisfiesAll {m : Nat} (asserts : List (PBAssert m)) (a : Fin m → Bool) : Bool :=
  asserts.all (evalAssert a)

/-- Every assignment of the `m` booleans, one per code in `[0, 2^m)`. -/
def assignments (m : Nat) : List (Fin m → Bool) :=
  (List.range (2 ^ m)).map (fun code => fun i => code.testBit i.val)

/-- Binary code of an assignment, inverse to the decoding in `assignments`. -/
def encodeFn : {m : Nat} → (Fin m → Bool) → Nat
  | 0, _ => 0
  | _ + 1, a => (if a 0 then 1 else 0) + 2 * encodeFn (fun i => a i.succ)

lemma encodeFn_lt : ∀ {m : Nat} (a : Fin m → Bool), encodeFn a < 2 ^ m := by
  intro m
  induction m with
  | zero => intro a; simp [encodeFn]
  | succ m ih =>
    intro a
    have h2 := ih (fun i => a i.succ)
    unfold encodeFn
    have hb : (if a 0 then 1 else 0) ≤ 1 := by
      by_cases h : a 0 = true <;> simp [h]
    rw [pow_succ]
    omega

lemma encodeFn_testBit : ∀ {m : Nat} (a : Fin m → Bool) (i : Fin m),
    (encodeFn a).testBit i.val = a i := by
  intro m
  induction m with
  | zero => intro _ i; exact absurd i.isLt (by omega)
  | succ m ih =>
    intro a i
    unfold encodeFn
    rcases Fin.eq_zero_or_eq_succ i with rfl | ⟨j, rfl⟩
    · show Nat.testBit _ 0 = a 0
      rw [Nat.testBit_zero]
      by_cases h : a 0 = true <;> simp [h, Nat.add_mul_mod_self_left]
    · have hval : (j.succ : Fin (m + 1)).val = j.val + 1 := rfl
      rw [hval, Nat.testBit_succ]
      have hdiv : ((if a 0 then 1 else 0) + 2 * encodeFn (fun i => a i.succ)) / 2 =
          encodeFn (fun i => a i.succ) := by
        by_cases h : a 0 = true
        · simp [h]
          omega
        · simp [h]
      rw [hdiv]
      exact ih (fun i => a i.succ) j

lemma assignments_complete {m : Nat} (a : Fin m → Bool) : a ∈ assignments m := by
  refine List.mem_map.mpr ⟨encodeFn a, List.mem_range.mpr (encodeFn_lt a), ?_⟩
  funext i
  exact encodeFn_testBit a i

/-- Modelled from the spec: the decision oracle on cardinality-constrained
propositional formulas (§4.6, §6.3, §7) — the class is decidable, so the
oracle is realised as an exhaustive search that answers `sat` with a model or
`unsat`, never `unknown`; this models the `solver.check()` call of
`exact_fvs_solver` (mod.rs lines 151-164), whose `Unknown` arm is
`unreachable!`. -/
def checkOracle {m : Nat} (asserts : List (PBAssert m)) : SatResult m :=
  match (assignments m).find? (satisfiesAll asserts) with
  | some a => SatResult.sat a
  | none => SatResult.unsat

/-- C8 (OracleUnknown is unreachable): on the assertion language of
`exact_fvs_solver` the decision oracle never answers `unknown` — it is a
sound and complete decision procedure, so the `Unknown => unreachable!` arm
can never fire. -/
theorem oracle_never_unknown (m : Nat) (asserts : List (PBAssert m)) :
    checkOracle asserts ≠ SatResult.unknown ∧
    (∀ a, checkOracle asserts = SatResult.sat a → satisfiesAll asserts a = true) ∧
    (checkOracle asserts = SatResult.unsat → ∀ a, satisfiesAll asserts a = false) := by
  unfold checkOracle
  cases hf : (assignments m).find? (satisfiesAll asserts) with
  | some a0 =>
    refine ⟨by simp, ?_, by simp⟩
    intro a ha
    have : a0 = a := by
      injection ha
    rw [← this]
    exact List.find?_some hf
  | none =>
    refine ⟨by simp, by simp, ?_⟩
    intro _ a
    have := List.find?_eq_none.mp hf a (assignments_complete a)
    simpa using this

/-- Witness for C8 at a concrete input: a one-variable instance demanding
exactly five true variables is reported unsatisfiable (not unknown), so every
assignment indeed falsifies it. -/
theorem oracle_never_unknown_witness :
    satisfiesAll [(PBAssert.exactlyK 5 : PBAssert 1)] (fun _ => true) = false :=
  (oracle_never_unknown 1 [PBAssert.exactlyK 5]).2.2 rfl (fun _ => true)

end Oracle

namespace EBool3

/-- The three-valued booleans of the `ebool` enumeration sort of
`fixed_points.rs` (lines 162, 189-199): definite `zero`, definite `one`, and
indeterminate `star`. -/
inductive EBool where
  | zero
  | one
  | star
deriving DecidableEq

/-- Mirror of `MyContext::e_bool_and` (fixed_points.rs lines 201-220): the
inner ite selects on both-zero, the outer ite on either-one. -/
def e_bool_and (left right : EBool) : EBool :=
  let x := if left = EBool.zero ∧ right = EBool.zero then EBool.zero else EBool.star
  if left = EBool.one ∨ right = EBool.one then EBool.one else x

/-- Mirror of `MyContext::e_bool_or` (fixed_points.rs lines 222-241): the
inner ite selects on both-one, the outer ite on either-zero. -/
def e_bool_or (left right : EBool) : EBool :=
  let x := if left = EBool.one ∧ right = EBool.one then EBool.one else EBool.star
  if left = EBool.zero ∨ right = EBool.zero then EBool.zero else x

/-- Mirror of `MyContext::e_bool_not` (fixed_points.rs lines 243-249). -/
def e_bool_not (inner : EBool) : EBool :=
  let x := if inner = EBool.zero then EBool.one else EBool.star
  if inner = EBool.one then EBool.zero else x

/-- Kleene three-valued conjunction (truth-table reference). -/
def kleeneAnd : EBool → EBool → EBool
  | EBool.zero, _ => EBool.zero
  | _, EBool.zero => EBool.zero
  | EBool.one, EBool.one => EBool.one
  | _, _ => EBool.star

/-- Kleene three-valued disjunction (truth-table reference). -/
def kleeneOr : EBool → EBool → EBool
  | EBool.one, _ => EBool.one
  | _, EBool.one => EBool.one
  | EBool.zero, EBool.zero => EBool.zero
  | _, _ => EBool.star

/-- Kleene three-valued negation (truth-table reference). -/
def kleeneNot : EBool → EBool
  | EBool.zero => EBool.one
  | EBool.one => EBool.zero
  | EBool.star => EBool.star

/-- C10 evaluation (code bug): `e_bool_and` and `e_bool_or` implement each
other's Kleene truth tables — in particular `e_bool_and(one, zero) = one` and
`e_bool_or(one, zero) = zero`, contradicting two-valued conjunction and
disjunction on definite constants — while `e_bool_not` is the correct Kleene
negation, showing the two binary connectives are swapped by mistake. -/
theorem e_bool_and_or_swapped :
    e_bool_and EBool.one EBool.zero = EBool.one ∧
    e_bool_or EBool.one EBool.zero = EBool.zero ∧
    (∀ l r, e_bool_and l r = kleeneOr l r) ∧
    (∀ l r, e_bool_or l r = kleeneAnd l r) ∧
    (∀ x, e_bool_not x = kleeneNot x) := by
  refine ⟨rfl, rfl, ?_, ?_, ?_⟩
  · intro l r; cases l <;> cases r <;> rfl
  · intro l r; cases l <;> cases r <;> rfl
  · intro x; cases x <;> rfl

end EBool3

namespace Async

variable {X : Type} [DecidableEq X]

/-- Modelled from the spec and the commented equivalent in `fixed_points.rs`
(lines 133-134): `var_can_post_out(var, S)` of the symbolic async graph is the
subset of `S` whose one-variable asynchronous successor leaves `S`.  Colored
states are an abstract finite type `X`; `step var` is the deterministic
successor under updating variable `var` (the identity when the update does not
change the variable, in which case no transition exists and the state cannot
leave `S`). -/
def canPostOut (m : Nat) (step : Fin m → X → X) (var : Fin m) (S : Finset X) :
    Finset X :=
  S.filter (fun x => step var x ∉ S)

/-- One escape search of the `forward_closed` loop (fixed_points.rs lines
131-141): the first variable in descending order whose `can_go_out` set is
nonempty. -/
def findEscape (m : Nat) (step : Fin m → X → X) (S : Finset X) : Option (Fin m) :=
  (List.finRange m).reverse.find? (fun v => decide (canPostOut m step v S).Nonempty)

/-- The iteration of `forward_closed` (fixed_points.rs lines 122-152): while
some variable can escape the current basin, remove its escaping states and
restart the variable scan; the fuel bounds the number of removal rounds. -/
def fcGo (m : Nat) (step : Fin m → X → X) : Nat → Finset X → Finset X
  | 0, basin => basin
  | fuel + 1, basin =>
    match findEscape m step basin with
    | none => basin
    | some v => fcGo m step fuel (basin \ canPostOut m step v basin)

/-- Shallow embedding of `forward_closed(graph, initial)`
(fixed_points.rs lines 122-152); `initial.card + 1` rounds always suffice
because every round removes at least one state. -/
def forwardClosed (m : Nat) (step : Fin m → X → X) (initial : Finset X) : Finset X :=
  fcGo m step (initial.card + 1) initial

lemma fcGo_subset (m : Nat) (step : Fin m → X → X) :
    ∀ (fuel : Nat) (basin : Finset X), fcGo m step fuel basin ⊆ basin := by
  intro fuel
  induction fuel with
  | zero => intro basin; exact Finset.Subset.refl _
  | succ fuel ih =>
    intro basin
    show (match findEscape m step basin with
      | none => basin
      | some v => fcGo m step fuel (basin \ canPostOut m step v basin)) ⊆ basin
    cases hf : findEscape m step basin with
    | none => exact Finset.Subset.refl _
    | some v =>
      exact Finset.Subset.trans (ih _) (Finset.sdiff_subset)

lemma fcGo_no_escape (m : Nat) (step : Fin m → X → X) :
    ∀ (fuel : Nat) (basin : Finset X), basin.card < fuel →
      ∀ var, canPostOut m step var (fcGo m step fuel basin) = ∅ := by
  intro fuel
  induction fuel with
  | zero => intro basin h; omega
  | succ fuel ih =>
    intro basin hcard var
    show canPostOut m step var (match findEscape m step basin with
      | none => basin
      | some v => fcGo m step fuel (basin \ canPostOut m step v basin)) = ∅
    cases hf : findEscape m step basin with
    | none =>
      have := List.find?_eq_none.mp hf var
        (List.mem_reverse.mpr (List.mem_finRange var))
      simp only [decide_eq_true_eq] at this
      exact Finset.not_nonempty_iff_eq_empty.mp this
    | some v =>
      have hnonempty : (canPostOut m step v basin).Nonempty := by
        have := List.find?_some hf
        simpa using this
      have hsub : canPostOut m step v basin ⊆ basin := Finset.filter_subset _ _
      have hlt : (basin \ canPostOut m step v basin).card < basin.card := by
        rw [Finset.card_sdiff hsub]
        have hpos : 0 < (canPostOut m step v basin).card :=
          Finset.card_pos.mpr hnonempty
        have hle : (canPostOut m step v basin).card ≤ basin.card :=
          Finset.card_le_card hsub
        omega
      exact ih _ (by omega) var

lemma fcGo_contains_closed (m : Nat) (step : Fin m → X → X) :
    ∀ (fuel : Nat) (basin S : Finset X),
      (∀ var, canPostOut m step var S = ∅) → S ⊆ basin →
      S ⊆ fcGo m step fuel basin := by
  intro fuel
  induction fuel with
  | zero => intro basin S _ h; exact h
  | succ fuel ih =>
    intro basin S hclosed hsub
    show S ⊆ (match findEscape m step basin with
      | none => basin
      | some v => fcGo m step fuel (basin \ canPostOut m step v basin))
    cases hf : findEscape m step basin with
    | none => exact hsub
    | some v =>
      apply ih
      · exact hclosed
      · intro x hx
        rw [Finset.mem_sdiff]
        refine ⟨hsub hx, fun hmem => ?_⟩
        rcases Finset.mem_filter.mp hmem with ⟨_, hout⟩
        have hstepS : step v x ∈ S := by
          by_contra hnot
          have : x ∈ canPostOut m step v S := Finset.mem_filter.mpr ⟨hx, hnot⟩
          rw [hclosed v] at this
          simp at this
        exact hout (hsub hstepS)

/-- C9 (forward_closed computes the largest forward-closed subset): the result
is contained in `initial`, no variable admits a transition out of it, and
every forward-closed subset of `initial` is contained in it. -/
theorem forward_closed_largest (X : Type) [DecidableEq X] (m : Nat)
    (step : Fin m → X → X) (initial : Finset X) :
    forwardClosed m step initial ⊆ initial ∧
    (∀ var, canPostOut m step var (forwardClosed m step initial) = ∅) ∧
    (∀ S : Finset X, (∀ var, canPostOut m step var S = ∅) → S ⊆ initial →
      S ⊆ forwardClosed m step initial) := by
  refine ⟨fcGo_subset m step _ initial, ?_, ?_⟩
  · exact fcGo_no_escape m step _ initial (Nat.lt_succ_self _)
  · intro S hclosed hsub
    exact fcGo_contains_closed m step _ initial S hclosed hsub

/-- One-variable toy system whose update drives every state to `true`;
concrete instance for the C9 witness. -/
def exampleStep : Fin 1 → Bool → Bool := fun _ _ => true

/-- Witness for C9 at a concrete input: in the toy system, the forward-closed
set `{true}` is contained in the largest forward-closed subset that
`forward_closed` extracts from the full state space. -/
theorem forward_closed_largest_witness :
    ({true} : Finset Bool) ⊆ forwardClosed 1 exampleStep {false, true} :=
  (forward_closed_largest Bool 1 exampleStep {false, true}).2.2 {true}
    (by decide) (by decide)

end Async

namespace Params

/-- Denotation of a symbolic predicate over parameter valuations; models
`biodivine_lib_bdd::Bdd` (an external crate, treated per §6.2 as a black-box
symbolic engine) by the Boolean function it denotes on BDD-variable
valuations. -/
def BddF : Type := (Nat → Bool) → Bool

def mkTrue : BddF := fun _ => true

def mkFalse : BddF := fun _ => false

def mkVar (i : Nat) : BddF := fun v => v i

def bAnd (a b : BddF) : BddF := fun v => a v && b v

def bOr (a b : BddF) : BddF := fun v => a v || b v

def bNot (a : BddF) : BddF := fun v => !a v

def bImp (a b : BddF) : BddF := fun v => !a v || b v

def bIff (a b : BddF) : BddF := fun v => a v == b v

def bXor (a b : BddF) : BddF := fun v => a v != b v

/-- Declared monotonicity of a regulation (`Monotonicity` in the library). -/
inductive Monotonicity where
  | Activation
  | Inhibition
deriving DecidableEq

/-- Binary operators of update-function expressions (`BinaryOp`). -/
inductive BinaryOp where
  | And
  | Or
  | Xor
  | Iff
  | Imp
deriving DecidableEq

/-- Update-function expression tree (`FnUpdate`), per §9: constants,
variables, named parameter applications, negation and binary operators. -/
inductive FnUpdate (nv : Nat) where
  | Const (value : Bool)
  | Var (v : Fin nv)
  | Param (p : Nat) (args : List (Fin nv))
  | Not (inner : FnUpdate nv)
  | Binary (op : BinaryOp) (left right : FnUpdate nv)

/-- A regulation record `(regulator, target, sign?, observable)` (§3). -/
structure Regulation (nv : Nat) where
  regulator : Fin nv
  target : Fin nv
  monotonicity : Option Monotonicity
  observable : Bool

/-- A Boolean network: its regulations plus an optional explicit update
function per variable (none = fully parametric implicit function). -/
structure BooleanNetwork (nv : Nat) where
  regulations : List (Regulation nv)
  update : Fin nv → Option (FnUpdate nv)

variable {nv : Nat}

/-- Regulators of target `t`, ascending by id; mirrors
`bn.graph.regulators(target)`. -/
def regulatorsOf (bn : BooleanNetwork nv) (t : Fin nv) : List (Fin nv) :=
  (List.finRange nv).filter
    (fun u => bn.regulations.any (fun r => r.regulator == u && r.target == t))

/-- Modelled from the spec: the parameter encoder of §6.2
(`BddParameterEncoder`, module `bdd_params`, not among the provided sources).
`getImplicit s t` is the BDD variable of the implicit-function table row of
target `t` selected by state `s` (`implicit_param`); `explicitParam p row` is
the BDD variable of the row of explicit parameter `p` selected by the
argument values. -/
structure BddParameterEncoder (nv : Nat) where
  getImplicit : Nat → Fin nv → Nat
  explicitParam : Nat → List Bool → Nat

/-- Modelled from the spec: `FnUpdate::_symbolic_eval(state, encoder)`
(module `bdd_params`, not among the provided sources) — the straightforward
fold of §9/§4.7 substituting the state bit for each variable and the
encoder's parameter variable, keyed by the argument row, for each parameter
application. -/
def symbolicEval (enc : BddParameterEncoder nv) : FnUpdate nv → Nat → BddF
  | .Const b, _ => if b then mkTrue else mkFalse
  | .Var v, s => if s.testBit v.val then mkTrue else mkFalse
  | .Param p args, s => mkVar (enc.explicitParam p (args.map (fun a => s.testBit a.val)))
  | .Not f, s => bNot (symbolicEval enc f s)
  | .Binary op l r, s =>
    match op with
    | .And => bAnd (symbolicEval enc l s) (symbolicEval enc r s)
    | .Or => bOr (symbolicEval enc l s) (symbolicEval enc r s)
    | .Xor => bXor (symbolicEval enc l s) (symbolicEval enc r s)
    | .Iff => bIff (symbolicEval enc l s) (symbolicEval enc r s)
    | .Imp => bImp (symbolicEval enc l s) (symbolicEval enc r s)

/-- Compact-index-to-state expansion (`extend_table_index_to_state`,
impl_static_constraints.rs lines 168-180): bit `j` of the table index is
placed at bit position `args[j].id` of the network-wide state, every other
position is zero.  The source loops over `j`; this recursion over `args`
consumes the index bit by bit, which computes the same state. -/
def extend_table_index_to_state (i : Nat) : List (Fin nv) → Nat
  | [] => 0
  | a :: rest =>
    (if i.testBit 0 then 1 <<< a.val else 0) |||
      extend_table_index_to_state (i >>> 1) rest

/-- The input-pair iterator (`InputStatesPairIterator`,
impl_static_constraints.rs lines 121-161): walk the compact row indices
`0 .. 2^m`, skip those whose bit for the regulator is set, and emit the
expanded `off` state together with the `on` state obtained by flipping the
regulator's network bit. -/
def inputPairs (bn : BooleanNetwork nv) (r : Regulation nv) : List (Nat × Nat) :=
  let regulators := regulatorsOf bn r.target
  let mask := 1 <<< (regulators.findIdx (fun v => v == r.regulator))
  (List.range (1 <<< regulators.length)).filterMap (fun i =>
    if i &&& mask ≠ 0 then none
    else some (extend_table_index_to_state i regulators,
      extend_table_index_to_state i regulators ^^^ (1 <<< r.regulator.val)))

/-- Table pair to symbolic pair for an implicit update function
(`Ctx::pair_implicit`, impl_static_constraints.rs lines 58-65). -/
def pair_implicit (enc : BddParameterEncoder nv) (states : Nat × Nat)
    (variable1 : Fin nv) : BddF × BddF :=
  (mkVar (enc.getImplicit states.1 variable1), mkVar (enc.getImplicit states.2 variable1))

/-- Table pair to symbolic pair for an explicit update function
(`Ctx::pair_explicit`, impl_static_constraints.rs lines 49-55). -/
def pair_explicit (enc : BddParameterEncoder nv) (states : Nat × Nat)
    (fn1 : FnUpdate nv) : BddF × BddF :=
  (symbolicEval enc fn1 states.1, symbolicEval enc fn1 states.2)

/-- Per-pair monotonicity constraint (`build_monotonicity_pair`,
impl_static_constraints.rs lines 184-191): `Activation` gives
`inactive => active`, `Inhibition` gives `active => inactive`. -/
def build_monotonicity_pair (inactive active : BddF) :
    Monotonicity → BddF
  | .Activation => bImp inactive active
  | .Inhibition => bImp active inactive

/-- Monotonicity constraint for an implicit update function
(`build_monotonicity_implicit`, impl_static_constraints.rs lines 68-77); the
source unwraps the declared sign, modelled by `Option.getD` on a path only
taken when the sign is declared. -/
def build_monotonicity_implicit (enc : BddParameterEncoder nv)
    (bn : BooleanNetwork nv) (r : Regulation nv) : BddF :=
  (inputPairs bn r).foldl
    (fun condition st =>
      bAnd condition
        (build_monotonicity_pair (pair_implicit enc st r.target).1
          (pair_implicit enc st r.target).2
          (r.monotonicity.getD Monotonicity.Activation)))
    mkTrue

/-- Observability constraint for an implicit update function
(`build_observability_implicit`, impl_static_constraints.rs lines 79-86). -/
def build_observability_implicit (enc : BddParameterEncoder nv)
    (bn : BooleanNetwork nv) (r : Regulation nv) : BddF :=
  (inputPairs bn r).foldl
    (fun condition st =>
      bOr condition
        (bNot (bIff (pair_implicit enc st r.target).1 (pair_implicit enc st r.target).2)))
    mkFalse

/-- Monotonicity constraint for an explicit update function
(`build_monotonicity_explicit`, impl_static_constraints.rs lines 88-101). -/
def build_monotonicity_explicit (enc : BddParameterEncoder nv)
    (bn : BooleanNetwork nv) (r : Regulation nv) (fn1 : FnUpdate nv) : BddF :=
  (inputPairs bn r).foldl
    (fun condition st =>
      bAnd condition
        (build_monotonicity_pair (pair_explicit enc st fn1).1
          (pair_explicit enc st fn1).2
          (r.monotonicity.getD Monotonicity.Activation)))
    mkTrue

/-- Observability constraint for an explicit update function
(`build_observability_explicit`, impl_static_constraints.rs lines 103-114). -/
def build_observability_explicit (enc : BddParameterEncoder nv)
    (bn : BooleanNetwork nv) (r : Regulation nv) (fn1 : FnUpdate nv) : BddF :=
  (inputPairs bn r).foldl
    (fun condition st =>
      bOr condition
        (bNot (bIff (pair_explicit enc st fn1).1 (pair_explicit enc st fn1).2)))
    mkFalse

/-- The static-constraint compiler (`build_static_constraints`,
impl_static_constraints.rs lines 12-37): start from the true predicate and,
for every regulation, conjoin its monotonicity constraint when a sign is
declared and its observability constraint when it is marked observable,
using the explicit builders when the target has an update function and the
implicit ones otherwise. -/
def build_static_constraints (bn : BooleanNetwork nv)
    (enc : BddParameterEncoder nv) : BddF :=
  bn.regulations.foldl
    (fun condition r =>
      match bn.update r.target with
      | some fn1 =>
        let condition := if r.monotonicity.isSome
          then bAnd condition (build_monotonicity_explicit enc bn r fn1) else condition
        if r.observable
          then bAnd condition (build_observability_explicit enc bn r fn1) else condition
      | none =>
        let condition := if r.monotonicity.isSome
          then bAnd condition (build_monotonicity_implicit enc bn r) else condition
        if r.observable
          then bAnd condition (build_observability_implicit enc bn r) else condition)
    mkTrue

/-- The target's row function `f_t` of the specification: symbolic evaluation
of the explicit update function when one exists, the per-row implicit
parameter variable otherwise. -/
def rowFun (bn : BooleanNetwork nv) (enc : BddParameterEncoder nv)
    (t : Fin nv) (s : Nat) : BddF :=
  match bn.update t with
  | some fn1 => symbolicEval enc fn1 s
  | none => mkVar (enc.getImplicit s t)

/-- The monotonicity constraint `build_static_constraints` conjoins for a
regulation, resolving the explicit/implicit dispatch on the target's update
function. -/
def monotonicityConstraintOf (bn : BooleanNetwork nv)
    (enc : BddParameterEncoder nv) (r : Regulation nv) : BddF :=
  match bn.update r.target with
  | some fn1 => build_monotonicity_explicit enc bn r fn1
  | none => build_monotonicity_implicit enc bn r

/-- The observability constraint `build_static_constraints` conjoins for a
regulation, resolving the explicit/implicit dispatch. -/
def observabilityConstraintOf (bn : BooleanNetwork nv)
    (enc : BddParameterEncoder nv) (r : Regulation nv) : BddF :=
  match bn.update r.target with
  | some fn1 => build_observability_explicit enc bn r fn1
  | none => build_observability_implicit enc bn r

lemma foldl_bAnd_eval {α : Type} (g : α → BddF) (l : List α) (init : BddF)
    (v : Nat → Bool) :
    (l.foldl (fun c a => bAnd c (g a)) init) v = (init v && l.all (fun a => g a v)) := by
  induction l generalizing init with
  | nil => simp [bAnd]
  | cons a l ih =>
    show (l.foldl (fun c a => bAnd c (g a)) (bAnd init (g a))) v = _
    rw [ih (bAnd init (g a))]
    simp [bAnd, Bool.and_assoc]

lemma foldl_bOr_eval {α : Type} (g : α → BddF) (l : List α) (init : BddF)
    (v : Nat → Bool) :
    (l.foldl (fun c a => bOr c (g a)) init) v = (init v || l.any (fun a => g a v)) := by
  induction l generalizing init with
  | nil => simp [bOr]
  | cons a l ih =>
    show (l.foldl (fun c a => bOr c (g a)) (bOr init (g a))) v = _
    rw [ih (bOr init (g a))]
    simp [bOr, Bool.or_assoc]

lemma build_monotonicity_implicit_eval (enc : BddParameterEncoder nv)
    (bn : BooleanNetwork nv) (r : Regulation nv) (v : Nat → Bool) :
    build_monotonicity_implicit enc bn r v = true ↔
      ∀ st ∈ inputPairs bn r,
        build_monotonicity_pair (pair_implicit enc st r.target).1
          (pair_implicit enc st r.target).2
          (r.monotonicity.getD Monotonicity.Activation) v = true := by
  unfold build_monotonicity_implicit
  rw [foldl_bAnd_eval]
  simp [mkTrue]

lemma build_monotonicity_explicit_eval (enc : BddParameterEncoder nv)
    (bn : BooleanNetwork nv) (r : Regulation nv) (fn1 : FnUpdate nv) (v : Nat → Bool) :
    build_monotonicity_explicit enc bn r fn1 v = true ↔
      ∀ st ∈ inputPairs bn r,
        build_monotonicity_pair (pair_explicit enc st fn1).1
          (pair_explicit enc st fn1).2
          (r.monotonicity.getD Monotonicity.Activation) v = true := by
  unfold build_monotonicity_explicit
  rw [foldl_bAnd_eval]
  simp [mkTrue]

lemma build_observability_implicit_eval (enc : BddParameterEncoder nv)
    (bn : BooleanNetwork nv) (r : Regulation nv) (v : Nat → Bool) :
    build_observability_implicit enc bn r v = true ↔
      ∃ st ∈ inputPairs bn r,
        (pair_implicit enc st r.target).1 v ≠ (pair_implicit enc st r.target).2 v := by
  unfold build_observability_implicit
  rw [foldl_bOr_eval]
  simp [mkFalse, bNot, bIff]

lemma build_observability_explicit_eval (enc : BddParameterEncoder nv)
    (bn : BooleanNetwork nv) (r : Regulation nv) (fn1 : FnUpdate nv) (v : Nat → Bool) :
    build_observability_explicit enc bn r fn1 v = true ↔
      ∃ st ∈ inputPairs bn r,
        (pair_explicit enc st fn1).1 v ≠ (pair_explicit enc st fn1).2 v := by
  unfold build_observability_explicit
  rw [foldl_bOr_eval]
  simp [mkFalse, bNot, bIff]

/-- Per-regulation conjunct of the compiled predicate. -/
def regConstraint (bn : BooleanNetwork nv) (enc : BddParameterEncoder nv)
    (r : Regulation nv) : BddF :=
  bAnd (if r.monotonicity.isSome then monotonicityConstraintOf bn enc r else mkTrue)
    (if r.observable then observabilityConstraintOf bn enc r else mkTrue)

lemma build_static_constraints_fold (bn : BooleanNetwork nv)
    (enc : BddParameterEncoder nv) (v : Nat → Bool) :
    ∀ (rs : List (Regulation nv)) (init : BddF),
      (rs.foldl
        (fun condition r =>
          match bn.update r.target with
          | some fn1 =>
            let condition := if r.monotonicity.isSome
              then bAnd condition (build_monotonicity_explicit enc bn r fn1) else condition
            if r.observable
              then bAnd condition (build_observability_explicit enc bn r fn1) else condition
          | none =>
            let condition := if r.monotonicity.isSome
              then bAnd condition (build_monotonicity_implicit enc bn r) else condition
            if r.observable
              then bAnd condition (build_observability_implicit enc bn r) else condition)
        init) v = (init v && rs.all (fun r => regConstraint bn enc r v)) := by
  intro rs
  induction rs with
  | nil => intro init; simp
  | cons r rs ih =>
    intro init
    rw [List.foldl_cons, ih, List.all_cons]
    have hstep : ∀ c : BddF,
        (match bn.update r.target with
          | some fn1 =>
            let c' := if r.monotonicity.isSome
              then bAnd c (build_monotonicity_explicit enc bn r fn1) else c
            if r.observable
              then bAnd c' (build_observability_explicit enc bn r fn1) else c'
          | none =>
            let c' := if r.monotonicity.isSome
              then bAnd c (build_monotonicity_implicit enc bn r) else c
            if r.observable
              then bAnd c' (build_observability_implicit enc bn r) else c') v =
          (c v && regConstraint bn enc r v) := by
      intro c
      unfold regConstraint monotonicityConstraintOf observabilityConstraintOf
      cases hup : bn.update r.target with
      | some fn1 =>
        by_cases hm : r.monotonicity.isSome <;> by_cases ho : r.observable <;>
          simp [hm, ho, bAnd, mkTrue, Bool.and_assoc]
      | none =>
        by_cases hm : r.monotonicity.isSome <;> by_cases ho : r.observable <;>
          simp [hm, ho, bAnd, mkTrue, Bool.and_assoc]
    rw [hstep init, Bool.and_assoc]

lemma build_static_constraints_eval (bn : BooleanNetwork nv)
    (enc : BddParameterEncoder nv) (v : Nat → Bool) :
    build_static_constraints bn enc v = true ↔
      ∀ r ∈ bn.regulations, regConstraint bn enc r v = true := by
  unfold build_static_constraints
  rw [build_static_constraints_fold]
  simp [mkTrue]

lemma regConstraint_eval (bn : BooleanNetwork nv) (enc : BddParameterEncoder nv)
    (r : Regulation nv) (v : Nat → Bool) :
    regConstraint bn enc r v = true ↔
      ((r.monotonicity.isSome = true → monotonicityConstraintOf bn enc r v = true) ∧
        (r.observable = true → observabilityConstraintOf bn enc r v = true)) := by
  unfold regConstraint
  by_cases hm : r.monotonicity.isSome <;> by_cases ho : r.observable <;>
    simp [hm, ho, bAnd, mkTrue]

lemma testBit_one_shift (v k : Nat) : (1 <<< v).testBit k = decide (v = k) := by
  rw [Nat.shiftLeft_eq, one_mul, Nat.testBit_two_pow]

lemma and_shift_eq_zero_iff (i r : Nat) :
    i &&& (1 <<< r) = 0 ↔ i.testBit r = false := by
  rw [Nat.shiftLeft_eq, one_mul, Nat.and_two_pow]
  constructor
  · intro h
    by_contra hb
    rw [Bool.not_eq_false] at hb
    rw [hb] at h
    simp at h
  · intro h
    rw [h]
    simp

lemma extend_testBit_notMem :
    ∀ (args : List (Fin nv)) (i k : Nat), (∀ w ∈ args, w.val ≠ k) →
      (extend_table_index_to_state i args).testBit k = false := by
  intro args
  induction args with
  | nil => intro i k _; exact Nat.zero_testBit k
  | cons a rest ih =>
    intro i k hk
    show ((if i.testBit 0 then 1 <<< a.val else 0) |||
      extend_table_index_to_state (i >>> 1) rest).testBit k = false
    rw [Nat.testBit_or]
    have h1 : (if i.testBit 0 then 1 <<< a.val else 0).testBit k = false := by
      by_cases hb : i.testBit 0 = true
      · rw [if_pos hb, testBit_one_shift]
        simpa using hk a (by simp)
      · rw [if_neg hb]
        exact Nat.zero_testBit k
    have h2 : (extend_table_index_to_state (i >>> 1) rest).testBit k = false :=
      ih (i >>> 1) k (fun w hw => hk w (List.mem_cons_of_mem _ hw))
    rw [h1, h2]
    rfl

lemma extend_testBit_get :
    ∀ (args : List (Fin nv)), args.Nodup → ∀ (i : Nat) (j : Nat) (h : j < args.length),
      (extend_table_index_to_state i args).testBit (args.get ⟨j, h⟩).val = i.testBit j := by
  intro args
  induction args with
  | nil => intro _ i j h; exact absurd h (by simp)
  | cons a rest ih =>
    intro hnd i j h
    rcases List.nodup_cons.mp hnd with ⟨hanotin, hnd'⟩
    show ((if i.testBit 0 then 1 <<< a.val else 0) |||
      extend_table_index_to_state (i >>> 1) rest).testBit _ = i.testBit j
    cases j with
    | zero =>
      show Nat.testBit _ a.val = i.testBit 0
      rw [Nat.testBit_or]
      have h2 : (extend_table_index_to_state (i >>> 1) rest).testBit a.val = false := by
        apply extend_testBit_notMem
        intro w hw hval
        exact hanotin (Fin.val_injective hval ▸ hw)
      rw [h2, Bool.or_false]
      by_cases hb : i.testBit 0 = true
      · rw [hb, if_pos rfl, testBit_one_shift]
        simp
      · rw [Bool.not_eq_true] at hb
        rw [hb, if_neg (by simp)]
        exact Nat.zero_testBit a.val
    | succ j =>
      have hj' : j < rest.length := by simpa using h
      have hget : (a :: rest).get ⟨j + 1, h⟩ = rest.get ⟨j, hj'⟩ := rfl
      rw [hget, Nat.testBit_or]
      have h1 : (if i.testBit 0 then 1 <<< a.val else 0).testBit
          (rest.get ⟨j, hj'⟩).val = false := by
        by_cases hb : i.testBit 0 = true
        · rw [if_pos hb, testBit_one_shift]
          have hne : a ≠ rest.get ⟨j, hj'⟩ := by
            intro heq
            exact hanotin (heq ▸ List.get_mem rest j hj')
          simpa using fun hval => hne (Fin.val_injective hval)
        · rw [if_neg hb]
          exact Nat.zero_testBit _
      rw [h1, Bool.false_or]
      have h2 := ih hnd' (i >>> 1) j hj'
      rw [h2, Nat.testBit_shiftRight, Nat.add_comm]

lemma extend_lt_of_bits {args : List (Fin nv)} {i k : Nat}
    (hik : 2 ^ args.length ≤ 2 ^ k) (hi : i < 2 ^ args.length) :
    i.testBit k = false :=
  Nat.testBit_lt_two_pow (by omega)

lemma extend_inj (args : List (Fin nv)) (hnd : args.Nodup) {i i' : Nat}
    (hi : i < 2 ^ args.length) (hi' : i' < 2 ^ args.length)
    (heq : extend_table_index_to_state i args = extend_table_index_to_state i' args) :
    i = i' := by
  apply Nat.eq_of_testBit_eq
  intro j
  by_cases hj : j < args.length
  · have h1 := extend_testBit_get args hnd i j hj
    have h2 := extend_testBit_get args hnd i' j hj
    rw [← h1, ← h2, heq]
  · have hle : 2 ^ args.length ≤ 2 ^ j :=
      Nat.pow_le_pow_right (by norm_num) (by omega)
    rw [extend_lt_of_bits hle hi, extend_lt_of_bits hle hi']

/-- Compact row index selecting in each table row the bits of state `s` at the
regulator positions; inverse to `extend_table_index_to_state` on states whose
bits lie at regulator positions only. -/
def compressState (s : Nat) : List (Fin nv) → Nat
  | [] => 0
  | a :: rest => (if s.testBit a.val then 1 else 0) ||| (compressState s rest <<< 1)

lemma compress_testBit (s : Nat) :
    ∀ (args : List (Fin nv)) (j : Nat),
      (compressState s args).testBit j =
        if h : j < args.length then s.testBit (args.get ⟨j, h⟩).val else false := by
  intro args
  induction args with
  | nil =>
    intro j
    rw [dif_neg (by simp)]
    exact Nat.zero_testBit j
  | cons a rest ih =>
    intro j
    show ((if s.testBit a.val then 1 else 0) ||| (compressState s rest <<< 1)).testBit j = _
    cases j with
    | zero =>
      rw [Nat.testBit_or]
      have h2 : (compressState s rest <<< 1).testBit 0 = false := by
        simp [Nat.testBit_shiftLeft]
      rw [h2, Bool.or_false, dif_pos (by simp)]
      show _ = s.testBit a.val
      by_cases hb : s.testBit a.val = true
      · rw [if_pos hb, hb]
        decide
      · rw [if_neg hb, Bool.not_eq_true] at *
        rw [hb]
        decide
    | succ j =>
      rw [Nat.testBit_or]
      have h1 : (if s.testBit a.val then 1 else 0).testBit (j + 1) = false := by
        by_cases hb : s.testBit a.val = true
        · rw [if_pos hb]
          have h10 : (1 : Nat) = 2 ^ 0 := rfl
          rw [h10, Nat.testBit_two_pow]
          simp
        · rw [if_neg hb]
          exact Nat.zero_testBit _
      have h2 : (compressState s rest <<< 1).testBit (j + 1) =
          (compressState s rest).testBit j := by
        simp [Nat.testBit_shiftLeft]
      rw [h1, h2, Bool.false_or, ih j]
      by_cases hj : j < rest.length
      · rw [dif_pos hj, dif_pos (by simpa using Nat.succ_lt_succ hj)]
        rfl
      · rw [dif_neg hj, dif_neg (by simpa using fun h => hj (Nat.lt_of_succ_lt_succ h))]

lemma compress_lt (s : Nat) :
    ∀ (args : List (Fin nv)), compressState s args < 2 ^ args.length := by
  intro args
  induction args with
  | nil => simp [compressState]
  | cons a rest ih =>
    show (if s.testBit a.val then 1 else 0) ||| (compressState s rest <<< 1) <
      2 ^ (rest.length + 1)
    apply Nat.or_lt_two_pow
    · have hle : (if s.testBit a.val then 1 else 0) ≤ 1 := by
        by_cases hb : s.testBit a.val = true <;> simp [hb]
      have hpow : 1 < 2 ^ (rest.length + 1) :=
        Nat.one_lt_two_pow_iff.mpr (by omega)
      omega
    · rw [Nat.shiftLeft_eq]
      have h2 : (2:Nat) ^ 1 = 2 := by norm_num
      rw [h2, pow_succ]
      omega

lemma extend_compress (s : Nat) (args : List (Fin nv)) (hnd : args.Nodup)
    (hbits : ∀ k, s.testBit k = true → ∃ w ∈ args, w.val = k) :
    extend_table_index_to_state (compressState s args) args = s := by
  apply Nat.eq_of_testBit_eq
  intro k
  by_cases hk : ∃ w ∈ args, w.val = k
  · obtain ⟨w, hw, rfl⟩ := hk
    obtain ⟨j, hj⟩ := List.mem_iff_get.mp hw
    rw [← hj]
    rw [extend_testBit_get args hnd _ j.val j.isLt]
    rw [compress_testBit s args j.val, dif_pos j.isLt]
  · push_neg at hk
    rw [extend_testBit_notMem args _ k hk]
    by_cases hs : s.testBit k = true
    · obtain ⟨w, hw, hwk⟩ := hbits k hs
      exact absurd hwk (hk w hw)
    · rw [Bool.not_eq_true] at hs
      rw [hs]

lemma filterMap_ite {α β : Type} (p : α → Prop) [DecidablePred p] (g : α → β)
    (l : List α) :
    l.filterMap (fun a => if p a then none else some (g a)) =
      (l.filter (fun a => decide (¬ p a))).map g := by
  induction l with
  | nil => rfl
  | cons a l ih => by_cases h : p a <;> simp [h, ih]

lemma regulatorsOf_nodup (bn : BooleanNetwork nv) (t : Fin nv) :
    (regulatorsOf bn t).Nodup :=
  (List.nodup_finRange nv).filter _

lemma regulator_mem_regulatorsOf {bn : BooleanNetwork nv} {r : Regulation nv}
    (hr : r ∈ bn.regulations) : r.regulator ∈ regulatorsOf bn r.target :=
  List.mem_filter.mpr ⟨List.mem_finRange _,
    List.any_eq_true.mpr ⟨r, hr, by simp⟩⟩

lemma regulator_findIdx_lt {bn : BooleanNetwork nv} {r : Regulation nv}
    (hr : r ∈ bn.regulations) :
    (regulatorsOf bn r.target).findIdx (fun v => v == r.regulator) <
      (regulatorsOf bn r.target).length :=
  List.findIdx_lt_length_of_exists
    ⟨r.regulator, regulator_mem_regulatorsOf hr, by simp⟩

lemma regulator_findIdx_get {bn : BooleanNetwork nv} {r : Regulation nv}
    (hr : r ∈ bn.regulations) :
    (regulatorsOf bn r.target).get
      ⟨(regulatorsOf bn r.target).findIdx (fun v => v == r.regulator),
        regulator_findIdx_lt hr⟩ = r.regulator := by
  have h := @List.findIdx_getElem _ (fun v => v == r.regulator)
    (regulatorsOf bn r.target) (regulator_findIdx_lt hr)
  rw [List.get_eq_getElem]
  simpa using h

lemma mem_inputPairs_iff {bn : BooleanNetwork nv} {r : Regulation nv}
    {st : Nat × Nat} :
    st ∈ inputPairs bn r ↔
      ∃ i, i < 2 ^ (regulatorsOf bn r.target).length ∧
        i &&& (1 <<< ((regulatorsOf bn r.target).findIdx (fun v => v == r.regulator))) = 0 ∧
        st = (extend_table_index_to_state i (regulatorsOf bn r.target),
          extend_table_index_to_state i (regulatorsOf bn r.target) ^^^
            (1 <<< r.regulator.val)) := by
  unfold inputPairs
  rw [filterMap_ite (fun i =>
    i &&& (1 <<< ((regulatorsOf bn r.target).findIdx (fun v => v == r.regulator))) ≠ 0)]
  simp only [List.mem_map, List.mem_filter, List.mem_range, decide_eq_true_eq,
    Nat.shiftLeft_eq, one_mul, not_not]
  constructor
  · rintro ⟨i, ⟨hi, hmask⟩, rfl⟩
    exact ⟨i, by simpa using hi, by simpa using hmask, rfl⟩
  · rintro ⟨i, hi, hmask, rfl⟩
    exact ⟨i, ⟨by simpa using hi, by simpa using hmask⟩, rfl⟩

/-- C5 (input-pair iterator): bit `j` of the compact row index lands at bit
position `r_j.id` of the emitted state; every emitted pair has the
regulator's bit clear in the off-state, the on-state is the off-state with
the regulator's network bit flipped, the off-state's set bits lie at
regulator positions only; and the off-states are pairwise distinct and range
over exactly the admissible assignments, i.e. one pair per assignment of the
target's other regulators. -/
theorem input_pairs_characterization (nv : Nat) (bn : BooleanNetwork nv)
    (r : Regulation nv) (hr : r ∈ bn.regulations) :
    (∀ (i : Nat) (j : Nat) (h : j < (regulatorsOf bn r.target).length),
        (extend_table_index_to_state i (regulatorsOf bn r.target)).testBit
          (((regulatorsOf bn r.target).get ⟨j, h⟩).val) = i.testBit j) ∧
    (∀ st ∈ inputPairs bn r,
        st.1.testBit r.regulator.val = false ∧
        st.2 = st.1 ^^^ (1 <<< r.regulator.val) ∧
        (∀ k, st.1.testBit k = true → ∃ w ∈ regulatorsOf bn r.target, w.val = k)) ∧
    ((inputPairs bn r).map Prod.fst).Nodup ∧
    (∀ s : Nat, s ∈ (inputPairs bn r).map Prod.fst ↔
        ((∀ k, s.testBit k = true → ∃ w ∈ regulatorsOf bn r.target, w.val = k) ∧
          s.testBit r.regulator.val = false)) := by
  have hnd := regulatorsOf_nodup bn r.target
  have hfst : ∀ st ∈ inputPairs bn r,
      st.1.testBit r.regulator.val = false ∧
      st.2 = st.1 ^^^ (1 <<< r.regulator.val) ∧
      (∀ k, st.1.testBit k = true → ∃ w ∈ regulatorsOf bn r.target, w.val = k) := by
    intro st hst
    obtain ⟨i, hi, hmask, rfl⟩ := mem_inputPairs_iff.mp hst
    refine ⟨?_, rfl, ?_⟩
    · have hbit : i.testBit ((regulatorsOf bn r.target).findIdx
          (fun v => v == r.regulator)) = false := (and_shift_eq_zero_iff _ _).mp hmask
      have := extend_testBit_get (regulatorsOf bn r.target) hnd i
        ((regulatorsOf bn r.target).findIdx (fun v => v == r.regulator))
        (regulator_findIdx_lt hr)
      rw [regulator_findIdx_get hr] at this
      rw [this, hbit]
    · intro k hk
      by_contra hnone
      push_neg at hnone
      rw [extend_testBit_notMem (regulatorsOf bn r.target) i k
        (fun w hw => hnone w hw)] at hk
      exact absurd hk (by simp)
  refine ⟨fun i j h => extend_testBit_get _ hnd i j h, hfst, ?_, ?_⟩
  · unfold inputPairs
    rw [filterMap_ite (fun i =>
      i &&& (1 <<< ((regulatorsOf bn r.target).findIdx (fun v => v == r.regulator))) ≠ 0)]
    rw [List.map_map]
    apply List.Nodup.map_on
    · intro x hx y hy hxy
      have hxlt : x < 2 ^ (regulatorsOf bn r.target).length := by
        have := List.mem_range.mp (List.mem_of_mem_filter hx)
        rwa [Nat.shiftLeft_eq, one_mul] at this
      have hylt : y < 2 ^ (regulatorsOf bn r.target).length := by
        have := List.mem_range.mp (List.mem_of_mem_filter hy)
        rwa [Nat.shiftLeft_eq, one_mul] at this
      exact extend_inj _ hnd hxlt hylt (by simpa using hxy)
    · exact (List.nodup_range _).filter _
  · intro s
    constructor
    · rintro hs
      obtain ⟨st, hst, rfl⟩ := List.mem_map.mp hs
      obtain ⟨hb, _, hbits⟩ := hfst st hst
      exact ⟨hbits, hb⟩
    · rintro ⟨hbits, hb⟩
      have hcomp := extend_compress s (regulatorsOf bn r.target) hnd hbits
      refine List.mem_map.mpr ⟨(extend_table_index_to_state
          (compressState s (regulatorsOf bn r.target)) (regulatorsOf bn r.target),
          extend_table_index_to_state
            (compressState s (regulatorsOf bn r.target)) (regulatorsOf bn r.target) ^^^
            (1 <<< r.regulator.val)), ?_, by rw [hcomp]⟩
      refine mem_inputPairs_iff.mpr ⟨compressState s (regulatorsOf bn r.target),
        compress_lt s _, ?_, rfl⟩
      apply (and_shift_eq_zero_iff _ _).mpr
      rw [compress_testBit s _ _, dif_pos (regulator_findIdx_lt hr),
        regulator_findIdx_get hr]
      exact hb

lemma build_monotonicity_pair_eval (a b : BddF) (m : Monotonicity) (val : Nat → Bool) :
    build_monotonicity_pair a b m val = true ↔
      (match m with
       | Monotonicity.Activation => a val = true → b val = true
       | Monotonicity.Inhibition => b val = true → a val = true) := by
  cases m
  · show bImp a b val = true ↔ _
    unfold bImp
    cases ha : a val <;> cases hb : b val <;> simp [ha, hb]
  · show bImp b a val = true ↔ _
    unfold bImp
    cases ha : a val <;> cases hb : b val <;> simp [ha, hb]

/-- C3 (monotonicity constraint): for a regulation with a declared sign, the
compiled predicate conjoins a monotonicity constraint, and that constraint
holds at a valuation exactly when, over every input pair of the target's
function, `f_t(x_off)` implies `f_t(x_on)` for `Activation` and `f_t(x_on)`
implies `f_t(x_off)` for `Inhibition`, where `f_t` is the symbolic evaluation
of the explicit update function or the per-row implicit parameter. -/
theorem static_monotonicity_constraint (nv : Nat) (bn : BooleanNetwork nv)
    (enc : BddParameterEncoder nv) (r : Regulation nv) (mono : Monotonicity)
    (hr : r ∈ bn.regulations) (hm : r.monotonicity = some mono) (val : Nat → Bool) :
    (build_static_constraints bn enc val = true →
      monotonicityConstraintOf bn enc r val = true) ∧
    (monotonicityConstraintOf bn enc r val = true ↔
      ∀ st ∈ inputPairs bn r,
        (match mono with
         | Monotonicity.Activation =>
             rowFun bn enc r.target st.1 val = true →
             rowFun bn enc r.target st.2 val = true
         | Monotonicity.Inhibition =>
             rowFun bn enc r.target st.2 val = true →
             rowFun bn enc r.target st.1 val = true)) := by
  constructor
  · intro hbsc
    have hreg := (build_static_constraints_eval bn enc val).mp hbsc r hr
    exact ((regConstraint_eval bn enc r val).mp hreg).1 (by rw [hm]; rfl)
  · cases hup : bn.update r.target with
    | some fn1 =>
      simp only [monotonicityConstraintOf, hup]
      rw [build_monotonicity_explicit_eval]
      simp only [rowFun, hup, hm, Option.getD_some, pair_explicit,
        build_monotonicity_pair_eval]
      cases mono <;> exact Iff.rfl
    | none =>
      simp only [monotonicityConstraintOf, hup]
      rw [build_monotonicity_implicit_eval]
      simp only [rowFun, hup, hm, Option.getD_some, pair_implicit,
        build_monotonicity_pair_eval]
      cases mono <;> exact Iff.rfl

/-- C4 (observability constraints in the compiled predicate): the compiler
starts from the true predicate; the accumulated predicate holds at a
valuation exactly when every regulation's applicable constraints hold, where
an observable regulation contributes the disjunction over input pairs of
`f_t(x_off) XOR f_t(x_on)` and a non-observable regulation contributes no
observability constraint. -/
theorem static_constraints_observability (nv : Nat) (bn : BooleanNetwork nv)
    (enc : BddParameterEncoder nv) (val : Nat → Bool) :
    (bn.regulations = [] → build_static_constraints bn enc val = true) ∧
    (build_static_constraints bn enc val = true ↔
      ∀ r ∈ bn.regulations,
        ((r.monotonicity.isSome = true →
            monotonicityConstraintOf bn enc r val = true) ∧
         (r.observable = true → ∃ st ∈ inputPairs bn r,
            rowFun bn enc r.target st.1 val ≠ rowFun bn enc r.target st.2 val))) := by
  constructor
  · intro hempty
    unfold build_static_constraints
    rw [hempty]
    rfl
  · rw [build_static_constraints_eval]
    apply forall₂_congr
    intro r _
    rw [regConstraint_eval]
    apply and_congr Iff.rfl
    apply imp_congr Iff.rfl
    cases hup : bn.update r.target with
    | some fn1 =>
      simp only [observabilityConstraintOf, hup]
      rw [build_observability_explicit_eval]
      simp only [rowFun, hup, pair_explicit]
    | none =>
      simp only [observabilityConstraintOf, hup]
      rw [build_observability_implicit_eval]
      simp only [rowFun, hup, pair_implicit]

/-- A concrete parameter encoder over two variables for witnesses. -/
def exampleEnc2 : BddParameterEncoder 2 :=
  ⟨fun s t => s * 2 + t.val, fun p _ => p⟩

/-- One activating, non-observable regulation `0 -> 1` with implicit update;
witness network for C3. -/
def exampleRegC3 : Regulation 2 :=
  ⟨0, 1, some Monotonicity.Activation, false⟩

def exampleBnC3 : BooleanNetwork 2 :=
  ⟨[exampleRegC3], fun _ => none⟩

/-- Witness for C3 at a concrete input: the compiled predicate of the
single-activation network holds at the all-true valuation, hence so does the
regulation's monotonicity constraint. -/
theorem static_monotonicity_constraint_witness :
    monotonicityConstraintOf exampleBnC3 exampleEnc2 exampleRegC3 (fun _ => true) = true :=
  (static_monotonicity_constraint 2 exampleBnC3 exampleEnc2 exampleRegC3
      Monotonicity.Activation (List.mem_cons_self _ _) rfl (fun _ => true)).1
    (by decide)

/-- An empty network over one variable; witness network for C4. -/
def exampleBnEmpty : BooleanNetwork 1 :=
  ⟨[], fun _ => none⟩

def exampleEnc1 : BddParameterEncoder 1 :=
  ⟨fun s t => s + t.val, fun p _ => p⟩

/-- Witness for C4 at a concrete input: with no regulations the compiled
predicate is the true predicate. -/
theorem static_constraints_observability_witness :
    build_static_constraints exampleBnEmpty exampleEnc1 (fun _ => true) = true :=
  (static_constraints_observability 1 exampleBnEmpty exampleEnc1 (fun _ => true)).1 rfl

/-- Regulation `0 -> 2` in a three-variable network where `2` also has the
regulator `1`; witness network for C5. -/
def exampleRegC5 : Regulation 3 :=
  ⟨0, 2, some Monotonicity.Activation, true⟩

def exampleBnC5 : BooleanNetwork 3 :=
  ⟨[exampleRegC5, ⟨1, 2, none, true⟩], fun _ => none⟩

/-- Witness for C5 at a concrete input: the off-states emitted by the
input-pair iterator of regulation `0 -> 2` are pairwise distinct. -/
theorem input_pairs_characterization_witness :
    ((inputPairs exampleBnC5 exampleRegC5).map Prod.fst).Nodup :=
  (input_pairs_characterization 3 exampleBnC5 exampleRegC5
      (List.mem_cons_self _ _)).2.2.1

end Params

end BioParamBN
